import Mathlib

/-!
Verification development for the static introspection engine of a
state-machine tooling repository (`introspectMachine.ts` and collaborators).
The definitions below are a shallow embedding of the TypeScript source:
JavaScript insertion-ordered objects and `Set`s are modelled as association
lists / lists with add-if-absent insertion, `throw` is modelled with
`Except`, and the machine definition tree is an inductive type mirroring
the xstate `StateNode` input contract used by the engine.
-/

set_option maxHeartbeats 1000000
set_option autoImplicit false

/-- JavaScript truthiness-style membership test on an association list. -/
def containsKey {α : Type} (m : List (String × α)) (k : String) : Bool :=
  m.any (fun p => p.1 == k)

/-- Lookup in an insertion-ordered object: first entry with the key. -/
def jsGet? {α : Type} (m : List (String × α)) (k : String) : Option α :=
  (m.find? (fun p => p.1 == k)).map (fun p => p.2)

/-- Assignment `obj[k] = v` on an insertion-ordered object: replaces the
value at an existing key (keeping its position) or appends a new entry. -/
def jsInsert {α : Type} (m : List (String × α)) (k : String) (v : α) : List (String × α) :=
  if containsKey m k then m.map (fun p => if p.1 == k then (k, v) else p)
  else m ++ [(k, v)]

/-- Build an insertion-ordered object from a list of key/value pairs. -/
def buildJsMap {α : Type} (pairs : List (String × α)) : List (String × α) :=
  pairs.foldl (fun acc p => jsInsert acc p.1 p.2) []

/-- In-place update of the value stored at a key (`obj[k].field = ...`). -/
def updateEntry {α : Type} (m : List (String × α)) (k : String) (f : α → α) :
    List (String × α) :=
  m.map (fun p => if p.1 == k then (p.1, f p.2) else p)

/-- JavaScript `Set.add` for strings: value-deduplicating, insertion ordered. -/
def addToSet (xs : List String) (x : String) : List String :=
  if xs.contains x then xs else xs ++ [x]

/-- Left fold of `Set.add` over a list of strings. -/
def foldAddToSet (acc : List String) : List String → List String
  | [] => acc
  | x :: xs => foldAddToSet (addToSet acc x) xs

/-- First-occurrence deduplication, the key order of a JavaScript object. -/
def firstDedup (l : List String) : List String :=
  foldAddToSet [] l

/-- An xstate `StateValue`: either a state name or a nested object. -/
inductive StateValue where
  | str : String → StateValue
  | obj : List (String × StateValue) → StateValue

/-- xstate's `pathToStateValue`: a one-segment path is the bare name, any
other path is a nested single-key object chain. -/
def pathToStateValue : List String → StateValue
  | [] => .obj []
  | [s] => .str s
  | s :: rest => .obj [(s, pathToStateValue rest)]

mutual

/-- `JSON.stringify` on a state value (names are assumed to need no escaping). -/
def StateValue.stringify : StateValue → String
  | .str s => "\"" ++ s ++ "\""
  | .obj es => "\x7b" ++ StateValue.stringifyEntries es ++ "\x7d"

/-- Comma-joined `JSON.stringify` of the entries of a state-value object. -/
def StateValue.stringifyEntries : List (String × StateValue) → String
  | [] => ""
  | [(k, v)] => "\"" ++ k ++ "\":" ++ StateValue.stringify v
  | (k, v) :: rest =>
    "\"" ++ k ++ "\":" ++ StateValue.stringify v ++ "," ++ StateValue.stringifyEntries rest

end

/-- A JavaScript `Set` of state values dedupes strings by value but keeps
every object (each `pathToStateValue` call allocates a fresh object, so two
object-valued occurrences are distinct `Set` members). -/
def addStateValue (xs : List StateValue) (v : StateValue) : List StateValue :=
  match v with
  | .str s =>
    if xs.any (fun w => match w with | .str t => t == s | .obj _ => false) then xs
    else xs ++ [v]
  | .obj _ => xs ++ [v]

/-- The per-item data tracked by the registry: triggering events and
occurrence state values, both in first-discovery order. -/
structure ItemData where
  events : List String
  states : List StateValue

/-- The internal map of `ItemMap`, an insertion-ordered object keyed by item name. -/
abbrev ItemMap := List (String × ItemData)

/-- `ItemMap.addItem`: ensure a slot exists for the name, then record the
state value derived from the node path into its occurrence set. -/
def addItem (m : ItemMap) (itemName : String) (nodePath : List String) : ItemMap :=
  let m := if containsKey m itemName then m else m ++ [(itemName, ⟨[], []⟩)]
  updateEntry m itemName
    (fun d => { d with states := addStateValue d.states (pathToStateValue nodePath) })

/-- `ItemMap.addEventToItem`: `addItem` plus adding the triggering event. -/
def addEventToItem (m : ItemMap) (itemName eventType : String) (nodePath : List String) :
    ItemMap :=
  updateEntry (addItem m itemName nodePath) itemName
    (fun d => { d with events := addToSet d.events eventType })

/-- The test of the `/^xstate\./` regular expression on an action type. -/
def xstateMatch (s : String) : Bool :=
  "xstate.".data.isPrefixOf s.data

/-- Does a name contain the namespacing separator (the `/\./` regex test)? -/
def hasDot (s : String) : Bool :=
  s.data.contains '.'

/-- One line of a category report. -/
structure DataShapeLine where
  name : String
  required : Bool
  events : List String
  states : List String
deriving Repr, DecidableEq, Inhabited

/-- A category report: its lines plus the aggregate `required` flag. -/
structure DataShape where
  lines : List DataShapeLine
  required : Bool
deriving Repr, DecidableEq, Inhabited

/-- `ItemMap.toDataShape`: drop names containing a dot, mark each remaining
name required iff it has no implementation, stringify the occurrence states,
and aggregate the `required` flag. `impl` is the category's implementations
table (the names for which `checkIfOptional` returns true). -/
def toDataShape (m : ItemMap) (impl : List String) : DataShape :=
  let lines := (m.filter (fun p => !(hasDot p.1))).map
    (fun p =>
      { name := p.1
        required := !(impl.contains p.1)
        events := p.2.events
        states := (p.2.states.map StateValue.stringify).filter (fun s => s ≠ "") })
  { lines := lines, required := lines.any (fun l => l.required) }

/-- The `actions` value of one conditional-combinator branch: an array of
values (string elements are tagged `some`, non-string elements `none`), a
single string, or some other non-array non-string value. -/
inductive CondActionsV where
  | arr : List (Option String) → CondActionsV
  | single : String → CondActionsV
  | other : CondActionsV
deriving Repr, DecidableEq

/-- One branch of the conditional combinator: its `cond` value when it is a
string, and its `actions` value. -/
structure ChooseBranch where
  cond : Option String
  actions : CondActionsV
deriving Repr, DecidableEq

/-- A guard/action object on a transition or state: its string `type`, whether
it carries an inline `exec` body, and (for the conditional combinator) the
`conds` array when `Array.isArray(action.conds)` holds. -/
structure ActionObject where
  type : String
  exec : Bool
  conds : Option (List ChooseBranch) := none
deriving Repr, DecidableEq

/-- A transition of the machine definition: its event type, the ids of its
target state nodes, the name of its guard when the guard exists and has a
name, and its action list. -/
structure TransitionDef where
  eventType : String
  target : List String
  cond : Option String
  actions : List ActionObject
deriving Repr, DecidableEq

/-- An invocation: its `src` when it is a string source id. -/
structure Invocation where
  src : Option String
deriving Repr, DecidableEq

/-- An activity: its string `type` (`""` models a falsy type). -/
structure Activity where
  type : String
deriving Repr, DecidableEq

/-- A delayed transition: its `delay` when it is string-valued. -/
structure DelayedTransition where
  delay : Option String
deriving Repr, DecidableEq

/-- The machine's per-category implementation tables
(`machine.options.guards` etc.): the names with an existing entry. -/
structure MachineOptions where
  guards : List String
  actions : List String
  services : List String
  activities : List String
  delays : List String
deriving Repr, DecidableEq, Inhabited

/-- A state node of the hierarchical machine definition: unique id, local
key, path from the root, the machine options (read off the root node only),
the ids of its initial state nodes, its child states, transitions,
entry/exit actions, invocations, activities and delayed transitions. -/
inductive StateNode where
  | mk
      (id : String)
      (key : String)
      (path : List String)
      (options : MachineOptions)
      (initialStateNodeIds : List String)
      (states : List StateNode)
      (transitions : List TransitionDef)
      (onEntry : List ActionObject)
      (onExit : List ActionObject)
      (invoke : List Invocation)
      (activities : List Activity)
      (after : List DelayedTransition)

def StateNode.id : StateNode → String
  | .mk i _ _ _ _ _ _ _ _ _ _ _ => i

def StateNode.key : StateNode → String
  | .mk _ k _ _ _ _ _ _ _ _ _ _ => k

def StateNode.path : StateNode → List String
  | .mk _ _ p _ _ _ _ _ _ _ _ _ => p

def StateNode.options : StateNode → MachineOptions
  | .mk _ _ _ o _ _ _ _ _ _ _ _ => o

def StateNode.initialStateNodeIds : StateNode → List String
  | .mk _ _ _ _ ini _ _ _ _ _ _ _ => ini

def StateNode.states : StateNode → List StateNode
  | .mk _ _ _ _ _ cs _ _ _ _ _ _ => cs

def StateNode.transitions : StateNode → List TransitionDef
  | .mk _ _ _ _ _ _ ts _ _ _ _ _ => ts

def StateNode.onEntry : StateNode → List ActionObject
  | .mk _ _ _ _ _ _ _ oe _ _ _ _ => oe

def StateNode.onExit : StateNode → List ActionObject
  | .mk _ _ _ _ _ _ _ _ ox _ _ _ => ox

def StateNode.invoke : StateNode → List Invocation
  | .mk _ _ _ _ _ _ _ _ _ inv _ _ => inv

def StateNode.activities : StateNode → List Activity
  | .mk _ _ _ _ _ _ _ _ _ _ acts _ => acts

def StateNode.after : StateNode → List DelayedTransition
  | .mk _ _ _ _ _ _ _ _ _ _ _ aft => aft

/-- Empty implementation tables. -/
def emptyOptions : MachineOptions :=
  ⟨[], [], [], [], []⟩

instance : Inhabited StateNode :=
  ⟨.mk "" "" [] emptyOptions [] [] [] [] [] [] [] []⟩

mutual

/-- Number of nodes of the ownership tree rooted at a node. -/
def StateNode.count : StateNode → Nat
  | .mk _ _ _ _ _ cs _ _ _ _ _ _ => 1 + StateNode.countList cs

/-- Total node count of a list of sibling subtrees. -/
def StateNode.countList : List StateNode → Nat
  | [] => 0
  | c :: cs => StateNode.count c + StateNode.countList cs

end

/-- A traversal context: the `initialStateNodeIds` of the node's parent
(`none` for the root, which has no parent), together with the node. -/
abbrev NodeCtx := Option (List String) × StateNode

mutual

/-- Document-order (preorder) flattening of the definition tree, pairing
every node with its parent's initial-state-node ids; this is the order in
which xstate registers state ids. -/
def preorder (parentInit : Option (List String)) : StateNode → List NodeCtx
  | .mk i k p o ini cs ts oe ox inv acts aft =>
    (parentInit, .mk i k p o ini cs ts oe ox inv acts aft) :: preorderList ini cs

/-- Preorder flattening of a list of sibling subtrees whose parent has the
given initial-state-node ids. -/
def preorderList (parentInit : List String) : List StateNode → List NodeCtx
  | [] => []
  | c :: cs => preorder (some parentInit) c ++ preorderList parentInit cs

end

/-- All node contexts of a machine in document order. -/
def allCtxs (machine : StateNode) : List NodeCtx :=
  preorder none machine

/-- The ids of all nodes of a machine in document order. -/
def allIds (machine : StateNode) : List String :=
  (allCtxs machine).map (fun c => c.2.id)

/-- The id-keyed pairs from which the machine's `idMap` is built. -/
def machinePairs (machine : StateNode) : List (String × NodeCtx) :=
  (allCtxs machine).map (fun c => (c.2.id, c))

/-- The machine's id → node lookup (`machine.getStateNodeById`). -/
def machineIdMap (machine : StateNode) : List (String × NodeCtx) :=
  buildJsMap (machinePairs machine)

/-- `machine.stateIds.map((id) => machine.getStateNodeById(id))`: every
registered node, in id-registration order. -/
def machineNodes (machine : StateNode) : List NodeCtx :=
  (machineIdMap machine).map (fun p => p.2)


/-- One entry of the graph indexer's `nodeMap`: the events recorded as able
to lead into the node, and the ids of its recorded children. -/
structure NodeEntry where
  sources : List String
  children : List String
deriving Repr, DecidableEq, Inhabited

/-- The node-id-keyed graph indexer map. -/
abbrev NodeMap := List (String × NodeEntry)

/-- The mutable state of one introspection run: the graph indexer plus the
five extension-point registries. -/
structure IntroState where
  nodeMap : NodeMap
  guards : ItemMap
  actions : ItemMap
  services : ItemMap
  activities : ItemMap
  delays : ItemMap

/-- `nodeMap[node.id] = { sources: new Set(), children: new Set() }` for
every registered node. -/
def initNodeMap (nm : NodeMap) : List NodeCtx → NodeMap
  | [] => nm
  | c :: cs => initNodeMap (jsInsert nm c.2.id ⟨[], []⟩) cs

/-- The fresh state at the start of a run. -/
def initState (machine : StateNode) : IntroState :=
  ⟨initNodeMap [] (machineNodes machine), [], [], [], [], []⟩

/-- Is this node an initial state of its parent, or the root state? -/
def isInitialNode (parentInit : Option (List String)) (node : StateNode) : Bool :=
  match parentInit with
  | some ids => ids.contains node.id
  | none => true

/-- Initial-state handling: register every string-sourced invocation in
Services keyed by the synthetic `"xstate.init"` event. -/
def addInitServices (path : List String) (m : ItemMap) : List Invocation → ItemMap
  | [] => m
  | i :: rest =>
    addInitServices path
      (match i.src with
       | some s => addEventToItem m s "xstate.init" path
       | none => m) rest

/-- Initial-state handling: register every entry action with a truthy type
in Actions keyed by the synthetic `"xstate.init"` event. -/
def addInitEntryActions (path : List String) (m : ItemMap) : List ActionObject → ItemMap
  | [] => m
  | a :: rest =>
    addInitEntryActions path
      (if a.type ≠ "" then addEventToItem m a.type "xstate.init" path else m) rest

/-- Initial-state handling: register every string-valued delay in Delays
keyed by the synthetic `"xstate.init"` event. -/
def addInitDelays (path : List String) (m : ItemMap) : List DelayedTransition → ItemMap
  | [] => m
  | d :: rest =>
    addInitDelays path
      (match d.delay with
       | some s => addEventToItem m s "xstate.init" path
       | none => m) rest

/-- `nodeMap[node.id].children.add(childNode.id)` for every child. -/
def recordChildren (nm : NodeMap) (node : StateNode) : NodeMap :=
  updateEntry nm node.id
    (fun e => { e with children := foldAddToSet e.children (node.states.map StateNode.id) })

/-- Register every activity whose type is truthy and not the implicit
`"xstate.invoke"` marker, keyed by occurrence only. -/
def addActivities (path : List String) (m : ItemMap) : List Activity → ItemMap
  | [] => m
  | a :: rest =>
    addActivities path
      (if a.type ≠ "" ∧ a.type ≠ "xstate.invoke" then addItem m a.type path else m) rest

/-- Register every string-valued delay keyed by occurrence only. -/
def addAfterDelays (path : List String) (m : ItemMap) : List DelayedTransition → ItemMap
  | [] => m
  | d :: rest =>
    addAfterDelays path
      (match d.delay with
       | some s => addItem m s path
       | none => m) rest

/-- Register every string-sourced invocation keyed by occurrence only. -/
def addInvokeServices (path : List String) (m : ItemMap) : List Invocation → ItemMap
  | [] => m
  | i :: rest =>
    addInvokeServices path
      (match i.src with
       | some s => addItem m s path
       | none => m) rest

/-- `nodeMap[targetNode.id].sources.add(transition.eventType)` for every
target; accessing a target id absent from the node map is the fatal lookup
failure of a dangling reference. -/
def addTargetSources (eventType : String) (nm : NodeMap) : List String → Except String NodeMap
  | [] => .ok nm
  | tid :: rest =>
    if containsKey nm tid then
      addTargetSources eventType
        (updateEntry nm tid (fun e => { e with sources := addToSet e.sources eventType })) rest
    else .error "Cannot read properties of undefined (reading sources)"

/-- Register the transition's guard when it exists, has a truthy name, and
its name is not the unnamed-guard sentinel `"cond"`. -/
def addTransitionGuard (eventType : String) (path : List String) (m : ItemMap)
    (cond : Option String) : ItemMap :=
  match cond with
  | some n => if n ≠ "" ∧ n ≠ "cond" then addEventToItem m n eventType path else m
  | none => m

/-- Register every string source id of an invocation list in Services keyed
by the given event type. -/
def addInvokeSourcesKeyed (eventType : String) (path : List String) (m : ItemMap) :
    List Invocation → ItemMap
  | [] => m
  | i :: rest =>
    addInvokeSourcesKeyed eventType path
      (match i.src with
       | some s => addEventToItem m s eventType path
       | none => m) rest

/-- Pick up the invocations of every resolved target: each string source id
is registered in Services keyed by the transition's event type, with the
source node's path as the occurrence. A target id absent from the lookup is
a fatal lookup failure. -/
def addTargetInvokes (lookup : List (String × NodeCtx)) (eventType : String)
    (path : List String) (m : ItemMap) : List String → Except String ItemMap
  | [] => .ok m
  | tid :: rest =>
    match jsGet? lookup tid with
    | some ctx =>
      addTargetInvokes lookup eventType path
        (addInvokeSourcesKeyed eventType path m ctx.2.invoke) rest
    | none => .error "Child state node does not exist"

/-- Register every string element of a branch's `actions` array in Actions
keyed by the enclosing transition's event type. -/
def addBranchListActions (eventType : String) (path : List String) (m : ItemMap) :
    List (Option String) → ItemMap
  | [] => m
  | a :: rest =>
    addBranchListActions eventType path
      (match a with
       | some s => addEventToItem m s eventType path
       | none => m) rest

/-- Register a branch's `actions` value: each string of an array, or the
single string, keyed by the enclosing transition's event type. -/
def addBranchActions (eventType : String) (path : List String) (m : ItemMap) :
    CondActionsV → ItemMap
  | .arr xs => addBranchListActions eventType path m xs
  | .single s => addEventToItem m s eventType path
  | .other => m

/-- Walk the conditional combinator's branches: a string-valued branch guard
registers in Guards and the branch actions register in Actions, all keyed by
the enclosing transition's event type. Returns the updated Guards and
Actions maps. -/
def processChooseBranches (eventType : String) (path : List String) (gm am : ItemMap) :
    List ChooseBranch → ItemMap × ItemMap
  | [] => (gm, am)
  | b :: rest =>
    let gm :=
      match b.cond with
      | some g => addEventToItem gm g eventType path
      | none => gm
    let am := addBranchActions eventType path am b.actions
    processChooseBranches eventType path gm am rest

/-- Walk a transition's action list: every action whose type does not match
`/^xstate\./` registers in Actions keyed by the transition's event type, and
an `"xstate.choose"` action carrying a branch array recurses into its
branches. Returns the updated Guards and Actions maps. -/
def processTransitionActions (eventType : String) (path : List String) (gm am : ItemMap) :
    List ActionObject → ItemMap × ItemMap
  | [] => (gm, am)
  | a :: rest =>
    let am :=
      if xstateMatch a.type then am
      else addEventToItem am a.type eventType path
    let gmam :=
      if a.type = "xstate.choose" then
        match a.conds with
        | some bs => processChooseBranches eventType path gm am bs
        | none => (gm, am)
      else (gm, am)
    processTransitionActions eventType path gmam.1 gmam.2 rest

/-- Process one outgoing transition of a node: record incoming events on
every target, register the named guard, pick up the targets' invocations,
then walk the transition's actions. -/
def processTransition (lookup : List (String × NodeCtx)) (path : List String)
    (st : IntroState) (t : TransitionDef) : Except String IntroState :=
  match addTargetSources t.eventType st.nodeMap t.target with
  | .error e => .error e
  | .ok nm =>
    let st := { st with nodeMap := nm }
    let st := { st with guards := addTransitionGuard t.eventType path st.guards t.cond }
    match addTargetInvokes lookup t.eventType path st.services t.target with
    | .error e => .error e
    | .ok sv =>
      let st := { st with services := sv }
      let gmam := processTransitionActions t.eventType path st.guards st.actions t.actions
      .ok { st with guards := gmam.1, actions := gmam.2 }

/-- Process a node's outgoing transitions in order. -/
def processTransitions (lookup : List (String × NodeCtx)) (path : List String)
    (st : IntroState) : List TransitionDef → Except String IntroState
  | [] => .ok st
  | t :: rest =>
    match processTransition lookup path st t with
    | .error e => .error e
    | .ok st₁ => processTransitions lookup path st₁ rest

/-- Pass 1 for one node: initial-state registrations, child recording,
activities, delays, invocations, then the outgoing transitions. -/
def processNode (lookup : List (String × NodeCtx)) (st : IntroState) (ctx : NodeCtx) :
    Except String IntroState :=
  let node := ctx.2
  let st :=
    if isInitialNode ctx.1 node then
      { st with
        services := addInitServices node.path st.services node.invoke
        actions := addInitEntryActions node.path st.actions node.onEntry
        delays := addInitDelays node.path st.delays node.after }
    else st
  let st := { st with nodeMap := recordChildren st.nodeMap node }
  let st := { st with activities := addActivities node.path st.activities node.activities }
  let st := { st with delays := addAfterDelays node.path st.delays node.after }
  let st := { st with services := addInvokeServices node.path st.services node.invoke }
  processTransitions lookup node.path st node.transitions

/-- Pass 1: process every registered node in order, aborting on the first
lookup failure. -/
def runNodes (lookup : List (String × NodeCtx)) (st : IntroState) :
    List NodeCtx → Except String IntroState
  | [] => .ok st
  | c :: cs =>
    match processNode lookup st c with
    | .error e => .error e
    | .ok st₁ => runNodes lookup st₁ cs

/-- Pass 2, first loop: every combined exit-then-entry action whose type
does not match `/^xstate\./` and that has no inline `exec` body registers in
Actions keyed by occurrence only. -/
def addPass2Items (path : List String) (m : ItemMap) : List ActionObject → ItemMap
  | [] => m
  | a :: rest =>
    addPass2Items path
      (if xstateMatch a.type ∨ a.exec then m else addItem m a.type path) rest

/-- Register one entry action under every event recorded as a source of the
node. -/
def addSourceEvents (path : List String) (ty : String) (m : ItemMap) :
    List String → ItemMap
  | [] => m
  | s :: rest => addSourceEvents path ty (addEventToItem m ty s path) rest

/-- Pass 2, second loop: every entry action registers in Actions keyed by
each event already recorded as a source of the node. -/
def addEntrySourceEvents (path : List String) (sources : List String) (m : ItemMap) :
    List ActionObject → ItemMap
  | [] => m
  | a :: rest => addEntrySourceEvents path sources (addSourceEvents path a.type m sources) rest

/-- Pass 2 for one node. -/
def processNodePass2 (st : IntroState) (ctx : NodeCtx) : IntroState :=
  let node := ctx.2
  let st := { st with actions := addPass2Items node.path st.actions (node.onExit ++ node.onEntry) }
  let sources := ((jsGet? st.nodeMap node.id).map (fun e => e.sources)).getD []
  { st with actions := addEntrySourceEvents node.path sources st.actions node.onEntry }

/-- Pass 2 over every registered node. -/
def runPass2 (st : IntroState) : List NodeCtx → IntroState
  | [] => st
  | c :: cs => runPass2 (processNodePass2 st c) cs

/-- Run both traversal passes of one introspection, producing the populated
graph indexer and registries (or the fatal lookup error). -/
def introspectState (machine : StateNode) : Except String IntroState :=
  match runNodes (machineIdMap machine) (initState machine) (machineNodes machine) with
  | .error e => .error e
  | .ok st₁ => .ok (runPass2 st₁ (machineNodes machine))

/-- The visualization tree built per state. -/
inductive SubState where
  | mk
      (sources : List String)
      (targets : List String)
      (states : List (String × SubState))

def SubState.sources : SubState → List String
  | .mk s _ _ => s

def SubState.targets : SubState → List String
  | .mk _ t _ => t

def SubState.states : SubState → List (String × SubState)
  | .mk _ _ cs => cs

/-- Modelled from the spec: the repository's `getTransitionsFromNode` helper
(whose source file is not part of the excerpt) formats the node's own
outgoing transitions as descriptor strings, empty entries being dropped by
the caller; one descriptor per outgoing transition. -/
def getTransitionsFromNode (node : StateNode) : List String :=
  node.transitions.map (fun t => t.eventType)

/-- Modelled from the spec: the repository's `getMatchesStates` helper
(whose source file is not part of the excerpt) is an external passthrough
producing, per state, its sequence of key names from the root. -/
def getMatchesStates (machine : StateNode) : List (List String) :=
  (allCtxs machine).map (fun c => c.2.path)

mutual

/-- `makeSubStateFromNode`, fuel-indexed: looks the node up in the graph
indexer and the id lookup, filters its recorded sources and formatted
targets, and recurses through the indexer's recorded children (never
through transition targets). Exhausted fuel models the bounded call stack
an unbounded ownership recursion would overflow; both functions consume one
unit of fuel per call so the recursion is structural on the fuel. -/
def makeSubStateF (lookup : List (String × NodeCtx)) (nm : NodeMap) :
    Nat → String → Option SubState
  | 0, _ => none
  | Nat.succ fuel, id =>
    match jsGet? nm id, jsGet? lookup id with
    | some entry, some ctx =>
      match makeSubStateChildren lookup nm fuel [] entry.children with
      | some childStates =>
        some (.mk (entry.sources.filter (fun s => s ≠ ""))
          ((getTransitionsFromNode ctx.2).filter (fun s => s ≠ ""))
          childStates)
      | none => none
    | _, _ => none

/-- Build the child map of a substate: each recorded child id is resolved,
recursively built, and keyed by the child's local key with object-spread
insertion semantics. -/
def makeSubStateChildren (lookup : List (String × NodeCtx)) (nm : NodeMap) :
    Nat → List (String × SubState) → List String → Option (List (String × SubState))
  | _, acc, [] => some acc
  | 0, _, _ :: _ => none
  | Nat.succ fuel, acc, cid :: rest =>
    match jsGet? lookup cid, makeSubStateF lookup nm fuel cid with
    | some cctx, some sub =>
      makeSubStateChildren lookup nm fuel (jsInsert acc cctx.2.key sub) rest
    | _, _ => none

end

instance : Inhabited SubState :=
  ⟨.mk [] [] []⟩

/-- One entry of the result's per-state edge list. -/
structure StateEdge where
  id : String
  sources : List String
deriving Repr, DecidableEq, Inhabited

/-- The output contract of one introspection run. -/
structure IntrospectResult where
  states : List StateEdge
  stateMatches : List (List String)
  subState : SubState
  guards : DataShape
  actions : DataShape
  services : DataShape
  activities : DataShape
  delays : DataShape

/-- `introspectMachine`: run both passes, build the substate tree, and
assemble the edge list and the five category reports. -/
def introspectMachine (machine : StateNode) : Except String IntrospectResult :=
  match introspectState machine with
  | .error e => .error e
  | .ok st =>
    match makeSubStateF (machineIdMap machine) st.nodeMap (2 * machine.count) machine.id with
    | none => .error "Maximum call stack size exceeded"
    | some sub =>
      .ok
        { states := st.nodeMap.map (fun p => { id := p.1, sources := p.2.sources })
          stateMatches := getMatchesStates machine
          subState := sub
          guards := toDataShape st.guards machine.options.guards
          actions := toDataShape st.actions machine.options.actions
          services := toDataShape st.services machine.options.services
          activities := toDataShape st.activities machine.options.activities
          delays := toDataShape st.delays machine.options.delays }

/-- Did the run succeed? -/
def exOk {α : Type} : Except String α → Bool
  | .ok _ => true
  | .error _ => false

/-- The services report lines of a successful run (empty on failure). -/
def servicesLines (machine : StateNode) : List DataShapeLine :=
  match introspectMachine machine with
  | .ok r => r.services.lines
  | .error _ => []

/-- The actions report lines of a successful run (empty on failure). -/
def actionsLines (machine : StateNode) : List DataShapeLine :=
  match introspectMachine machine with
  | .ok r => r.actions.lines
  | .error _ => []

/-- The guards report lines of a successful run (empty on failure). -/
def guardsLines (machine : StateNode) : List DataShapeLine :=
  match introspectMachine machine with
  | .ok r => r.guards.lines
  | .error _ => []

/-- The ids of the result's per-state edge list (empty on failure). -/
def edgeIds (machine : StateNode) : List String :=
  match introspectMachine machine with
  | .ok r => r.states.map (fun e => e.id)
  | .error _ => []

/-- State B of the C1 scenario: entry action `"notify"`, invocation with
string source id `"fetchData"`. -/
def scenarioB : StateNode :=
  .mk "B" "B" ["B"] emptyOptions [] [] [] [⟨"notify", false, none⟩] [] [⟨some "fetchData"⟩] [] []

/-- State A of the C1 scenario: a transition on `"GO"` targeting B. -/
def scenarioA : StateNode :=
  .mk "A" "A" ["A"] emptyOptions [] [] [⟨"GO", ["B"], none, []⟩] [] [] [] [] []

/-- The C1 scenario machine: root with initial child A and child B. -/
def scenarioGo : StateNode :=
  .mk "(machine)" "(machine)" [] emptyOptions ["A"] [scenarioA, scenarioB] [] [] [] [] [] []

/-- The C2 scenario machine: a root state that is its own initial state,
with entry action `"boot"`. -/
def scenarioBoot : StateNode :=
  .mk "(machine)" "(machine)" [] emptyOptions [] [] [] [⟨"boot", false, none⟩] [] [] [] []

/-- The C10 scenario machine: a transition on `"EV"` carrying the
conditional combinator with one branch whose guard is the literal string
`"cond"`. -/
def scenarioChooseCond : StateNode :=
  .mk "(machine)" "(machine)" [] emptyOptions ["A"]
    [.mk "A" "A" ["A"] emptyOptions [] []
      [⟨"EV", [], none, [⟨"xstate.choose", false, some [⟨some "cond", .other⟩]⟩]⟩]
      [] [] [] [] []]
    [] [] [] [] [] []

/-- A machine with a dangling transition target: state A's `"GO"` transition
targets the id `"MISSING"`, which no node carries. -/
def scenarioDangling : StateNode :=
  .mk "(machine)" "(machine)" [] emptyOptions ["A"]
    [.mk "A" "A" ["A"] emptyOptions [] [] [⟨"GO", ["MISSING"], none, []⟩] [] [] [] [] []]
    [] [] [] [] [] []

/-- All report lines of a successful run, across the five categories
(empty on failure). -/
def allResultLines (machine : StateNode) : List DataShapeLine :=
  match introspectMachine machine with
  | .ok r =>
    r.guards.lines ++ r.actions.lines ++ r.services.lines ++ r.activities.lines ++
      r.delays.lines
  | .error _ => []

/-- The contract of a category report's required flags: each line is
required iff its name is absent from the category's implementations table,
and the aggregate flag holds iff some line is required. -/
def requiredFlagsOk (shape : DataShape) (impl : List String) : Bool :=
  shape.lines.all (fun l => l.required == !(impl.contains l.name)) &&
    (shape.required == shape.lines.any (fun l => l.required))

/-- The five category reports of a successful run, each paired with its
implementations table (empty on failure). -/
def resultShapesWithImpl (machine : StateNode) : List (DataShape × List String) :=
  match introspectMachine machine with
  | .ok r =>
    [(r.guards, machine.options.guards), (r.actions, machine.options.actions),
     (r.services, machine.options.services), (r.activities, machine.options.activities),
     (r.delays, machine.options.delays)]
  | .error _ => []

/-- Does some registered node carry a transition with a target id absent
from the machine's id lookup? -/
def hasDanglingTarget (machine : StateNode) : Bool :=
  (machineNodes machine).any fun c =>
    c.2.transitions.any fun t => t.target.any fun tid => !((allIds machine).contains tid)

/-- Does the registry record this triggering event for this item name? -/
def hasEvent (m : ItemMap) (name ev : String) : Bool :=
  match jsGet? m name with
  | some d => d.events.contains ev
  | none => false

/-- The string-valued branch guards of one action object's conditional
combinator, each paired with the enclosing transition's event type. -/
def chooseGuardPairsOfAction (ev : String) (a : ActionObject) : List (String × String) :=
  if a.type = "xstate.choose" then
    match a.conds with
    | some bs => bs.filterMap (fun b => b.cond.map (fun g => (g, ev)))
    | none => []
  else []

/-- The string-valued branch action names of one conditional branch. -/
def chooseActionNamesOfBranch (b : ChooseBranch) : List String :=
  match b.actions with
  | .arr xs => xs.filterMap id
  | .single s => [s]
  | .other => []

/-- The string-valued branch actions of one action object's conditional
combinator, each paired with the enclosing transition's event type. -/
def chooseActionPairsOfAction (ev : String) (a : ActionObject) : List (String × String) :=
  if a.type = "xstate.choose" then
    match a.conds with
    | some bs =>
      (bs.map (fun b => (chooseActionNamesOfBranch b).map (fun s => (s, ev)))).flatten
    | none => []
  else []

/-- All conditional-branch guard registrations demanded by one transition. -/
def transitionChooseGuards (t : TransitionDef) : List (String × String) :=
  (t.actions.map (chooseGuardPairsOfAction t.eventType)).flatten

/-- All conditional-branch action registrations demanded by one transition. -/
def transitionChooseActions (t : TransitionDef) : List (String × String) :=
  (t.actions.map (chooseActionPairsOfAction t.eventType)).flatten

/-- All conditional-branch guard registrations of a machine's registered nodes. -/
def machineChooseGuards (machine : StateNode) : List (String × String) :=
  ((machineNodes machine).map
    (fun c => (c.2.transitions.map transitionChooseGuards).flatten)).flatten

/-- All conditional-branch action registrations of a machine's registered nodes. -/
def machineChooseActions (machine : StateNode) : List (String × String) :=
  ((machineNodes machine).map
    (fun c => (c.2.transitions.map transitionChooseActions).flatten)).flatten

/-- The Guards registry of a successful run (empty on failure). -/
def guardsOfRun (machine : StateNode) : ItemMap :=
  match introspectState machine with
  | .ok st => st.guards
  | .error _ => []

/-- The Actions registry of a successful run (empty on failure). -/
def actionsOfRun (machine : StateNode) : ItemMap :=
  match introspectState machine with
  | .ok st => st.actions
  | .error _ => []

/-- The effect of one transition action on the Guards and Actions maps
(the body of the per-action loop of the transition walker). -/
def transActionStep (ev : String) (path : List String) (gm am : ItemMap)
    (a : ActionObject) : ItemMap × ItemMap :=
  let am := if xstateMatch a.type then am else addEventToItem am a.type ev path
  if a.type = "xstate.choose" then
    match a.conds with
    | some bs => processChooseBranches ev path gm am bs
    | none => (gm, am)
  else (gm, am)

/-- The total node count of the subtrees looked up for a child-id list. -/
def countVia (lookup : List (String × NodeCtx)) : List String → Nat
  | [] => 0
  | cid :: rest =>
    (match jsGet? lookup cid with
     | some c => c.2.count
     | none => 0) + countVia lookup rest

/-- A machine exercising the conditional combinator: a branch guard, an
array-valued branch action list and a single-string branch action. -/
def scenarioChooseFull : StateNode :=
  .mk "(machine)" "(machine)" [] emptyOptions ["A"]
    [.mk "A" "A" ["A"] emptyOptions [] []
      [⟨"EV", [], none,
        [⟨"xstate.choose", false, some
          [⟨some "isReady", .arr [some "doA", none]⟩, ⟨none, .single "doB"⟩]⟩]⟩]
      [] [] [] [] []]
    [] [] [] [] [] []

/-- The graph indexer of a successful run (empty on failure). -/
def nodeMapOfRun (machine : StateNode) : NodeMap :=
  match introspectState machine with
  | .ok st => st.nodeMap
  | .error _ => []

attribute [simp] introspectMachine introspectState runNodes processNode machineNodes
  machineIdMap machinePairs buildJsMap firstDedup allCtxs allIds preorder preorderList initState
  initNodeMap jsInsert containsKey jsGet? updateEntry processTransitions processTransition
  addTargetSources addTransitionGuard addTargetInvokes addInvokeSourcesKeyed
  addInvokeServices addAfterDelays addActivities recordChildren addInitServices
  addInitEntryActions addInitDelays isInitialNode processTransitionActions
  processChooseBranches addBranchActions addBranchListActions runPass2 processNodePass2
  addPass2Items addSourceEvents addEntrySourceEvents makeSubStateF makeSubStateChildren
  getTransitionsFromNode getMatchesStates toDataShape addItem addEventToItem addToSet
  foldAddToSet addStateValue pathToStateValue StateValue.stringify StateValue.stringifyEntries
  xstateMatch hasDot exOk emptyOptions StateNode.count StateNode.countList StateNode.id
  StateNode.key StateNode.path StateNode.options StateNode.initialStateNodeIds
  StateNode.states StateNode.transitions StateNode.onEntry StateNode.onExit StateNode.invoke
  StateNode.activities StateNode.after servicesLines actionsLines guardsLines edgeIds
  scenarioGo scenarioA scenarioB scenarioBoot scenarioChooseCond scenarioDangling
  scenarioChooseFull
  allResultLines requiredFlagsOk resultShapesWithImpl hasDanglingTarget hasEvent
  chooseGuardPairsOfAction chooseActionNamesOfBranch chooseActionPairsOfAction
  transitionChooseGuards transitionChooseActions machineChooseGuards machineChooseActions
  guardsOfRun actionsOfRun nodeMapOfRun countVia

/-- C1 counterexample: on the scenario machine (root → "GO" → B, B invoking
"fetchData" and entering via "notify"), the run succeeds but no services
line has name "fetchData", events ["GO"] and states exactly ["\"B\""]: the
claim's expected services line does not occur. -/
theorem c1_scenario_counterexample :
    exOk (introspectMachine scenarioGo) = true ∧
      (servicesLines scenarioGo).all
        (fun l => !(l.name == "fetchData" && l.events == ["GO"] && l.states == ["\"B\""])) =
        true := by
  exact ⟨by simp, by simp⟩

/-- C1 (amended): on the scenario machine, the services report is exactly
the line for "fetchData" with events ["GO"] and occurrence states
["\"A\"", "\"B\""] (the transition-side registration records the source
state A's path, the per-node invoke registration records B's), and the
actions report is exactly the line for "notify" with events ["GO"] and
states ["\"B\""]. -/
theorem c1_scenario_amended :
    servicesLines scenarioGo =
        [{ name := "fetchData", required := true, events := ["GO"],
           states := ["\"A\"", "\"B\""] }] ∧
      actionsLines scenarioGo =
        [{ name := "notify", required := true, events := ["GO"], states := ["\"B\""] }] := by
  exact ⟨by simp, by simp⟩

/-- C2 counterexample: on the machine whose root is its own initial state
with entry action "boot", the run succeeds yet no actions line carries the
triggering event "init": the claim's expected line does not occur. -/
theorem c2_scenario_counterexample :
    exOk (introspectMachine scenarioBoot) = true ∧
      (actionsLines scenarioBoot).all (fun l => !(l.events.contains "init")) = true := by
  exact ⟨by simp, by simp⟩

/-- C2 (amended): on that machine the actions report is exactly one line
for "boot" whose only triggering event is the synthetic event's literal
name "xstate.init" (recorded once per occurrence registration, the root's
empty path stringifying twice as an empty object). -/
theorem c2_scenario_amended :
    actionsLines scenarioBoot =
      [{ name := "boot", required := true, events := ["xstate.init"],
         states := ["\x7b\x7d", "\x7b\x7d"] }] := by
  simp

/-- C10: the unnamed-guard sentinel exclusion applies only to
transition-level guards. On the scenario machine whose conditional branch
guard is the literal string "cond", the guards report registers "cond"
keyed by the enclosing transition's event "EV"; and the transition-level
guard registration leaves the Guards map unchanged whenever the
transition's guard is named "cond". -/
theorem c10_cond_sentinel_only_transition_level :
    guardsLines scenarioChooseCond =
        [{ name := "cond", required := true, events := ["EV"], states := ["\"A\""] }] ∧
      ∀ (eventType : String) (path : List String) (gm : ItemMap),
        addTransitionGuard eventType path gm (some "cond") = gm := by
  refine ⟨by simp, ?_⟩
  intro eventType path gm
  simp [addTransitionGuard]

/-- C8: introspection is deterministic — two runs of the introspection on
the same unchanged machine definition produce identical results, lists and
their orderings included. -/
theorem c8_deterministic (m₁ m₂ : StateNode) (h : m₁ = m₂) :
    introspectMachine m₁ = introspectMachine m₂ :=
  congrArg introspectMachine h

/-- Witness for C8 at the C1 scenario machine. -/
theorem c8_deterministic_witness :
    scenarioGo = scenarioGo ∧ introspectMachine scenarioGo = introspectMachine scenarioGo :=
  ⟨rfl, c8_deterministic scenarioGo scenarioGo rfl⟩

/-- Every line emitted by `toDataShape` has a dot-free name. -/
theorem toDataShape_lines_no_dot (m : ItemMap) (impl : List String) :
    ((toDataShape m impl).lines.all (fun l => !(hasDot l.name))) = true := by
  simp only [toDataShape, List.all_eq_true, List.mem_map, List.mem_filter]
  rintro l ⟨p, ⟨hp, hdot⟩, rfl⟩
  simpa using hdot

/-- Every `toDataShape` report satisfies the required-flag contract. -/
theorem toDataShape_requiredFlagsOk (m : ItemMap) (impl : List String) :
    requiredFlagsOk (toDataShape m impl) impl = true := by
  simp only [requiredFlagsOk, toDataShape, Bool.and_eq_true, List.all_eq_true,
    List.mem_map, List.mem_filter, beq_iff_eq]
  refine ⟨?_, by simp⟩
  rintro l ⟨p, ⟨hp, hdot⟩, rfl⟩
  rfl

/-- A successful `introspectMachine` run decomposes into a successful
two-pass traversal whose state determines every result field. -/
theorem introspectMachine_ok_fields {m : StateNode} {r : IntrospectResult}
    (h : introspectMachine m = .ok r) :
    ∃ st, introspectState m = .ok st ∧
      r.states = st.nodeMap.map (fun p => { id := p.1, sources := p.2.sources }) ∧
      r.guards = toDataShape st.guards m.options.guards ∧
      r.actions = toDataShape st.actions m.options.actions ∧
      r.services = toDataShape st.services m.options.services ∧
      r.activities = toDataShape st.activities m.options.activities ∧
      r.delays = toDataShape st.delays m.options.delays := by
  unfold introspectMachine at h
  split at h
  · simp at h
  next st hst =>
    split at h
    · simp at h
    next sub hsub =>
      simp only [Except.ok.injEq] at h
      subst h
      exact ⟨st, hst, rfl, rfl, rfl, rfl, rfl, rfl⟩

/-- C6: for every machine definition, no item name containing the
namespacing separator (a dot) appears in any `lines` array of the
introspection result, however often such a name was registered. -/
theorem c6_no_dotted_names (m : StateNode) :
    (allResultLines m).all (fun l => !(hasDot l.name)) = true := by
  cases h : introspectMachine m with
  | error e => simp [allResultLines, h, -introspectMachine]
  | ok r =>
    obtain ⟨st, hst, hstates, hg, ha, hs, hact, hd⟩ := introspectMachine_ok_fields h
    simp only [allResultLines, h, hg, ha, hs, hact, hd, List.all_append, Bool.and_eq_true]
    exact ⟨⟨⟨⟨toDataShape_lines_no_dot _ _, toDataShape_lines_no_dot _ _⟩,
      toDataShape_lines_no_dot _ _⟩, toDataShape_lines_no_dot _ _⟩,
      toDataShape_lines_no_dot _ _⟩

/-- C7: in every category report of every run, a line's required flag is
true iff its name is absent from that category's implementations table, and
the aggregate required flag is true iff some line of the filtered set is
required. -/
theorem c7_required_iff_unimplemented (m : StateNode) :
    (resultShapesWithImpl m).all (fun p => requiredFlagsOk p.1 p.2) = true := by
  cases h : introspectMachine m with
  | error e => simp [resultShapesWithImpl, h, -introspectMachine]
  | ok r =>
    obtain ⟨st, hst, hstates, hg, ha, hs, hact, hd⟩ := introspectMachine_ok_fields h
    simp only [resultShapesWithImpl, h, hg, ha, hs, hact, hd, List.all_cons, List.all_nil,
      Bool.and_eq_true]
    refine ⟨toDataShape_requiredFlagsOk _ _, toDataShape_requiredFlagsOk _ _,
      toDataShape_requiredFlagsOk _ _, toDataShape_requiredFlagsOk _ _,
      ⟨toDataShape_requiredFlagsOk _ _, trivial⟩⟩

/-- Boolean `contains` on strings agrees with membership. -/
theorem contains_true_iff (xs : List String) (x : String) :
    xs.contains x = true ↔ x ∈ xs := by
  simp

/-- `containsKey` is a predicate on the key list alone. -/
theorem containsKey_eq_keys {α : Type} (m : List (String × α)) (k : String) :
    containsKey m k = (m.map Prod.fst).any (fun x => x == k) := by
  induction m with
  | nil => rfl
  | cons p rest ih => simp [containsKey, List.any_cons] at *; rw [ih]

/-- `containsKey` holds exactly for the stored keys. -/
theorem containsKey_iff {α : Type} (m : List (String × α)) (k : String) :
    containsKey m k = true ↔ k ∈ m.map Prod.fst := by
  simp [containsKey, List.any_eq_true, List.mem_map]

/-- Mapping a pair function that preserves first components preserves the
key list. -/
theorem map_fst_preserve {α : Type} (g : (String × α) → (String × α))
    (hg : ∀ p, (g p).1 = p.1) (m : List (String × α)) :
    (m.map g).map Prod.fst = m.map Prod.fst := by
  rw [List.map_map]
  exact List.map_congr_left (fun p _ => hg p)

/-- Updating a value in place never changes the key list. -/
theorem updateEntry_keys {α : Type} (m : List (String × α)) (k : String) (f : α → α) :
    (updateEntry m k f).map Prod.fst = m.map Prod.fst := by
  unfold updateEntry
  exact map_fst_preserve _ (fun p => by by_cases h : p.1 == k <;> simp [h]) m

/-- Object assignment extends the key list by `Set.add` semantics. -/
theorem jsInsert_keys {α : Type} (m : List (String × α)) (k : String) (v : α) :
    (jsInsert m k v).map Prod.fst = addToSet (m.map Prod.fst) k := by
  unfold jsInsert addToSet
  by_cases h : containsKey m k
  · have hk : k ∈ m.map Prod.fst := (containsKey_iff m k).mp h
    have hc : (m.map Prod.fst).contains k = true := (contains_true_iff _ _).mpr hk
    rw [if_pos h, if_pos hc]
    exact map_fst_preserve _
      (fun p => by
        by_cases hp : p.1 == k
        · simp only [hp, if_true]
          exact (beq_iff_eq.mp hp).symm
        · simp [hp]) m
  · have hb : containsKey m k = false := Bool.eq_false_iff.mpr h
    have hk : k ∉ m.map Prod.fst := fun hmem => h ((containsKey_iff m k).mpr hmem)
    have hc : (m.map Prod.fst).contains k = false := by
      rw [Bool.eq_false_iff]
      intro hcon
      exact hk ((contains_true_iff _ _).mp hcon)
    rw [if_neg h, if_neg (by rw [hc]; exact Bool.false_ne_true)]
    simp only [List.map_append, List.map_cons, List.map_nil]

/-- Membership after `Set.add`. -/
theorem mem_addToSet {xs : List String} {x a : String} :
    a ∈ addToSet xs x ↔ a ∈ xs ∨ a = x := by
  unfold addToSet
  by_cases h : xs.contains x
  · have hx : x ∈ xs := (contains_true_iff xs x).mp h
    rw [if_pos h]
    constructor
    · exact Or.inl
    · rintro (hmem | rfl)
      · exact hmem
      · exact hx
  · rw [if_neg h]
    simp only [List.mem_append, List.mem_singleton]

/-- Membership after folding `Set.add`. -/
theorem mem_foldAddToSet {l : List String} {acc : List String} {a : String} :
    a ∈ foldAddToSet acc l ↔ a ∈ acc ∨ a ∈ l := by
  induction l generalizing acc with
  | nil => simp only [foldAddToSet, List.not_mem_nil, or_false]
  | cons x xs ih =>
    show a ∈ foldAddToSet (addToSet acc x) xs ↔ _
    rw [ih]
    simp only [mem_addToSet, List.mem_cons]
    tauto

/-- `Set.add` preserves key distinctness. -/
theorem nodup_addToSet {xs : List String} (h : xs.Nodup) (x : String) :
    (addToSet xs x).Nodup := by
  unfold addToSet
  by_cases hc : xs.contains x
  · rwa [if_pos hc]
  · have hx : x ∉ xs := fun hmem => hc ((contains_true_iff xs x).mpr hmem)
    rw [if_neg hc]
    simp [List.nodup_append, h, hx]

/-- Folding `Set.add` preserves key distinctness. -/
theorem nodup_foldAddToSet {l : List String} {acc : List String} (h : acc.Nodup) :
    (foldAddToSet acc l).Nodup := by
  induction l generalizing acc with
  | nil => simpa only [foldAddToSet]
  | cons x xs ih => exact ih (nodup_addToSet h x)

/-- Folding `Set.add` of fresh distinct keys is plain concatenation. -/
theorem foldAddToSet_of_disjoint {l acc : List String} (hd : ∀ a ∈ l, a ∉ acc)
    (hn : l.Nodup) : foldAddToSet acc l = acc ++ l := by
  induction l generalizing acc with
  | nil => simp only [foldAddToSet, List.append_nil]
  | cons x xs ih =>
    have hx : x ∉ acc := hd x (List.mem_cons_self x xs)
    have hadd : addToSet acc x = acc ++ [x] := by
      unfold addToSet
      rw [if_neg (fun hcon => hx ((contains_true_iff _ _).mp hcon))]
    show foldAddToSet (addToSet acc x) xs = acc ++ x :: xs
    rw [hadd, ih, List.append_assoc]
    · rfl
    · intro a ha
      simp only [List.mem_append, List.mem_singleton]
      rintro (hacc | rfl)
      · exact hd a (List.mem_cons_of_mem x ha) hacc
      · exact (List.nodup_cons.mp hn).1 ha
    · exact (List.nodup_cons.mp hn).2

/-- First-occurrence dedup of a duplicate-free list is the identity. -/
theorem firstDedup_of_nodup {l : List String} (h : l.Nodup) : firstDedup l = l := by
  unfold firstDedup
  simpa using foldAddToSet_of_disjoint (by simp) h

/-- First-occurrence dedup is idempotent. -/
theorem firstDedup_idem (l : List String) : firstDedup (firstDedup l) = firstDedup l :=
  firstDedup_of_nodup (nodup_foldAddToSet (List.nodup_nil))

/-- Recording incoming events never changes the node-map keys. -/
theorem addTargetSources_ok_keys {ev : String} {ts : List String} {nm nm' : NodeMap}
    (h : addTargetSources ev nm ts = .ok nm') : nm'.map Prod.fst = nm.map Prod.fst := by
  induction ts generalizing nm with
  | nil =>
    simp only [addTargetSources, Except.ok.injEq] at h
    rw [h]
  | cons tid rest ih =>
    unfold addTargetSources at h
    by_cases hc : containsKey nm tid
    · rw [if_pos hc] at h
      rw [ih h, updateEntry_keys]
    · rw [if_neg hc] at h
      exact absurd h (by simp)

/-- A successful incoming-event recording implies every target id is a key. -/
theorem addTargetSources_ok_mem {ev : String} {ts : List String} {nm nm' : NodeMap}
    (h : addTargetSources ev nm ts = .ok nm') :
    ∀ tid ∈ ts, containsKey nm tid = true := by
  induction ts generalizing nm with
  | nil => intro tid htid; exact absurd htid (List.not_mem_nil tid)
  | cons t rest ih =>
    unfold addTargetSources at h
    by_cases hc : containsKey nm t
    · rw [if_pos hc] at h
      intro tid htid
      rcases List.mem_cons.mp htid with rfl | hmem
      · exact hc
      · have := ih h tid hmem
        rwa [containsKey_eq_keys, updateEntry_keys, ← containsKey_eq_keys] at this
    · rw [if_neg hc] at h
      exact absurd h (by simp)

/-- Recording children never changes the node-map keys. -/
theorem recordChildren_keys (nm : NodeMap) (node : StateNode) :
    (recordChildren nm node).map Prod.fst = nm.map Prod.fst := by
  unfold recordChildren
  exact updateEntry_keys nm node.id _

/-- Processing one transition never changes the node-map keys. -/
theorem processTransition_ok_keys {lookup : List (String × NodeCtx)} {path : List String}
    {st st' : IntroState} {t : TransitionDef}
    (h : processTransition lookup path st t = .ok st') :
    st'.nodeMap.map Prod.fst = st.nodeMap.map Prod.fst := by
  unfold processTransition at h
  split at h
  · exact absurd h (by simp)
  next nm hnm =>
    dsimp only at h
    split at h
    · exact absurd h (by simp)
    next sv hsv =>
      simp only [Except.ok.injEq] at h
      subst h
      exact addTargetSources_ok_keys hnm

/-- Every target of a successfully processed transition is a node-map key. -/
theorem processTransition_ok_targets {lookup : List (String × NodeCtx)} {path : List String}
    {st st' : IntroState} {t : TransitionDef}
    (h : processTransition lookup path st t = .ok st') :
    ∀ tid ∈ t.target, containsKey st.nodeMap tid = true := by
  unfold processTransition at h
  split at h
  · exact absurd h (by simp)
  next nm hnm =>
    exact addTargetSources_ok_mem hnm

/-- Processing a transition list never changes the node-map keys. -/
theorem processTransitions_ok_keys {lookup : List (String × NodeCtx)} {path : List String}
    {ts : List TransitionDef} {st st' : IntroState}
    (h : processTransitions lookup path st ts = .ok st') :
    st'.nodeMap.map Prod.fst = st.nodeMap.map Prod.fst := by
  induction ts generalizing st with
  | nil =>
    simp only [processTransitions, Except.ok.injEq] at h
    rw [h]
  | cons t rest ih =>
    unfold processTransitions at h
    split at h
    · exact absurd h (by simp)
    next st₁ hst₁ =>
      rw [ih h, processTransition_ok_keys hst₁]

/-- Every target of a successfully processed transition list is a key. -/
theorem processTransitions_ok_targets {lookup : List (String × NodeCtx)}
    {path : List String} {ts : List TransitionDef} {st st' : IntroState}
    (h : processTransitions lookup path st ts = .ok st') :
    ∀ t ∈ ts, ∀ tid ∈ t.target, containsKey st.nodeMap tid = true := by
  induction ts generalizing st with
  | nil => intro t ht; exact absurd ht (List.not_mem_nil t)
  | cons t₀ rest ih =>
    unfold processTransitions at h
    split at h
    · exact absurd h (by simp)
    next st₁ hst₁ =>
      intro t ht tid htid
      rcases List.mem_cons.mp ht with rfl | hmem
      · exact processTransition_ok_targets hst₁ tid htid
      · have := ih h t hmem tid htid
        rwa [containsKey_eq_keys, processTransition_ok_keys hst₁,
          ← containsKey_eq_keys] at this

/-- Pass-1 processing of one node never changes the node-map keys. -/
theorem processNode_ok_keys {lookup : List (String × NodeCtx)} {st st' : IntroState}
    {ctx : NodeCtx} (h : processNode lookup st ctx = .ok st') :
    st'.nodeMap.map Prod.fst = st.nodeMap.map Prod.fst := by
  simp only [processNode] at h
  rw [processTransitions_ok_keys h]
  dsimp only
  rw [recordChildren_keys]
  split
  · rfl
  · rfl

/-- Every target of a successfully processed node is a node-map key. -/
theorem processNode_ok_targets {lookup : List (String × NodeCtx)} {st st' : IntroState}
    {ctx : NodeCtx} (h : processNode lookup st ctx = .ok st') :
    ∀ t ∈ ctx.2.transitions, ∀ tid ∈ t.target, containsKey st.nodeMap tid = true := by
  simp only [processNode] at h
  intro t ht tid htid
  have := processTransitions_ok_targets h t ht tid htid
  rw [containsKey_eq_keys] at this
  dsimp only at this
  rw [recordChildren_keys] at this
  rw [containsKey_eq_keys]
  split at this
  · exact this
  · exact this

/-- Pass 1 never changes the node-map keys. -/
theorem runNodes_ok_keys {lookup : List (String × NodeCtx)} {cs : List NodeCtx}
    {st st' : IntroState} (h : runNodes lookup st cs = .ok st') :
    st'.nodeMap.map Prod.fst = st.nodeMap.map Prod.fst := by
  induction cs generalizing st with
  | nil =>
    simp only [runNodes, Except.ok.injEq] at h
    rw [h]
  | cons c rest ih =>
    unfold runNodes at h
    split at h
    · exact absurd h (by simp)
    next st₁ hst₁ =>
      rw [ih h, processNode_ok_keys hst₁]

/-- If pass 1 succeeds, every transition target of every processed node is a
key of the initial node map. -/
theorem runNodes_ok_targets {lookup : List (String × NodeCtx)} {cs : List NodeCtx}
    {st st' : IntroState} (h : runNodes lookup st cs = .ok st') :
    ∀ c ∈ cs, ∀ t ∈ c.2.transitions, ∀ tid ∈ t.target,
      containsKey st.nodeMap tid = true := by
  induction cs generalizing st with
  | nil => intro c hc; exact absurd hc (List.not_mem_nil c)
  | cons c₀ rest ih =>
    unfold runNodes at h
    split at h
    · exact absurd h (by simp)
    next st₁ hst₁ =>
      intro c hc t ht tid htid
      rcases List.mem_cons.mp hc with rfl | hmem
      · exact processNode_ok_targets hst₁ t ht tid htid
      · have := ih h c hmem t ht tid htid
        rwa [containsKey_eq_keys, processNode_ok_keys hst₁, ← containsKey_eq_keys] at this

/-- Pass 2 leaves the node map untouched. -/
theorem runPass2_nodeMap (st : IntroState) (cs : List NodeCtx) :
    (runPass2 st cs).nodeMap = st.nodeMap := by
  induction cs generalizing st with
  | nil => rfl
  | cons c rest ih =>
    show (runPass2 (processNodePass2 st c) rest).nodeMap = _
    rw [ih]
    rfl

/-- Object assignment introduces no entry beyond the assigned pair. -/
theorem jsInsert_mem {α : Type} {m : List (String × α)} {k : String} {v : α}
    {q : String × α} (h : q ∈ jsInsert m k v) : q ∈ m ∨ q = (k, v) := by
  unfold jsInsert at h
  by_cases hc : containsKey m k
  · rw [if_pos hc] at h
    rcases List.mem_map.mp h with ⟨p, hp, hq⟩
    by_cases hpk : p.1 == k
    · rw [if_pos hpk] at hq
      exact Or.inr hq.symm
    · rw [if_neg hpk] at hq
      exact Or.inl (hq ▸ hp)
  · rw [if_neg hc] at h
    rcases List.mem_append.mp h with hm | hs
    · exact Or.inl hm
    · exact Or.inr (List.mem_singleton.mp hs)

/-- Members of a built object come from its input pairs. -/
theorem buildJsMapAux_mem {α : Type} {pairs : List (String × α)} {acc : List (String × α)}
    {q : String × α} (h : q ∈ pairs.foldl (fun a p => jsInsert a p.1 p.2) acc) :
    q ∈ acc ∨ q ∈ pairs := by
  induction pairs generalizing acc with
  | nil => exact Or.inl h
  | cons p rest ih =>
    rw [List.foldl_cons] at h
    rcases ih h with hacc | hrest
    · rcases jsInsert_mem hacc with hm | rfl
      · exact Or.inl hm
      · exact Or.inr (List.mem_cons_self p rest)
    · exact Or.inr (List.mem_cons_of_mem p hrest)

/-- Keys of a built object: first-occurrence order of the input keys. -/
theorem buildJsMapAux_keys {α : Type} (pairs : List (String × α)) (acc : List (String × α)) :
    (pairs.foldl (fun a p => jsInsert a p.1 p.2) acc).map Prod.fst =
      foldAddToSet (acc.map Prod.fst) (pairs.map Prod.fst) := by
  induction pairs generalizing acc with
  | nil => rfl
  | cons p rest ih =>
    rw [List.foldl_cons, ih, jsInsert_keys]
    rfl

/-- The machine id lookup's keys are the deduplicated document-order ids. -/
theorem machineIdMap_keys (m : StateNode) :
    (machineIdMap m).map Prod.fst = firstDedup (allIds m) := by
  unfold machineIdMap buildJsMap
  rw [buildJsMapAux_keys]
  unfold firstDedup machinePairs allIds
  rw [List.map_map]
  rfl

/-- Every id-lookup entry stores its key as its node's id. -/
theorem machineIdMap_fst (m : StateNode) :
    ∀ q ∈ machineIdMap m, q.1 = q.2.2.id := by
  intro q hq
  unfold machineIdMap buildJsMap at hq
  rcases buildJsMapAux_mem hq with hacc | hp
  · exact absurd hacc (List.not_mem_nil q)
  · rcases List.mem_map.mp hp with ⟨c, _, rfl⟩
    rfl

/-- The registered nodes' ids are the id lookup's keys. -/
theorem machineNodes_ids (m : StateNode) :
    (machineNodes m).map (fun c => c.2.id) = (machineIdMap m).map Prod.fst := by
  unfold machineNodes
  rw [List.map_map]
  exact List.map_congr_left (fun q hq => (machineIdMap_fst m q hq).symm)

/-- Keys of the freshly initialized node map. -/
theorem initNodeMap_keys (cs : List NodeCtx) (nm : NodeMap) :
    (initNodeMap nm cs).map Prod.fst =
      foldAddToSet (nm.map Prod.fst) (cs.map (fun c => c.2.id)) := by
  induction cs generalizing nm with
  | nil => rfl
  | cons c rest ih =>
    show (initNodeMap (jsInsert nm c.2.id ⟨[], []⟩) rest).map Prod.fst = _
    rw [ih, jsInsert_keys]
    rfl

/-- The initial node map is keyed by the deduplicated document-order ids. -/
theorem initState_keys (m : StateNode) :
    (initState m).nodeMap.map Prod.fst = firstDedup (allIds m) := by
  show (initNodeMap [] (machineNodes m)).map Prod.fst = _
  rw [initNodeMap_keys]
  show firstDedup ((machineNodes m).map fun c => c.2.id) = _
  rw [machineNodes_ids, machineIdMap_keys, firstDedup_idem]

/-- A successful two-pass traversal decomposes into its two passes. -/
theorem introspectState_ok_parts {m : StateNode} {st : IntroState}
    (h : introspectState m = .ok st) :
    ∃ st₁, runNodes (machineIdMap m) (initState m) (machineNodes m) = .ok st₁ ∧
      st = runPass2 st₁ (machineNodes m) := by
  unfold introspectState at h
  split at h
  · exact absurd h (by simp)
  next st₁ h₁ =>
    simp only [Except.ok.injEq] at h
    exact ⟨st₁, h₁, h.symm⟩

/-- The final node map is keyed by the deduplicated document-order ids. -/
theorem introspectState_ok_keys {m : StateNode} {st : IntroState}
    (h : introspectState m = .ok st) :
    st.nodeMap.map Prod.fst = firstDedup (allIds m) := by
  obtain ⟨st₁, h₁, rfl⟩ := introspectState_ok_parts h
  rw [runPass2_nodeMap, runNodes_ok_keys h₁, initState_keys]

/-- C4: for every machine whose introspection succeeds, the result's edge
list is keyed by the machine's state ids in first-registration order — each
state's id appears exactly once, no duplicates and no missing states. -/
theorem c4_edges_exactly_once (m : StateNode) (h : exOk (introspectMachine m) = true) :
    edgeIds m = firstDedup (allIds m) ∧
      (allIds m).all (fun i => (edgeIds m).count i == 1) = true := by
  cases hr : introspectMachine m with
  | error e => rw [hr] at h; exact absurd h (by simp)
  | ok r =>
    obtain ⟨st, hst, hstates, _, _, _, _, _⟩ := introspectMachine_ok_fields hr
    have hedge : edgeIds m = st.nodeMap.map Prod.fst := by
      simp only [edgeIds, hr, hstates, List.map_map]
      exact List.map_congr_left (fun p _ => rfl)
    have hkeys := introspectState_ok_keys hst
    refine ⟨by rw [hedge, hkeys], ?_⟩
    rw [List.all_eq_true]
    intro i hi
    rw [beq_iff_eq, hedge, hkeys]
    exact List.count_eq_one_of_mem (nodup_foldAddToSet List.nodup_nil)
      (mem_foldAddToSet.mpr (Or.inr hi))

/-- Witness for C4 at the C1 scenario machine. -/
theorem c4_edges_exactly_once_witness :
    exOk (introspectMachine scenarioGo) = true ∧
      (edgeIds scenarioGo = firstDedup (allIds scenarioGo) ∧
        (allIds scenarioGo).all (fun i => (edgeIds scenarioGo).count i == 1) = true) :=
  ⟨by simp, c4_edges_exactly_once scenarioGo (by simp)⟩

/-- C3: a machine definition containing a transition whose target id is not
in the id → node lookup makes introspection abort with a lookup error — it
never returns a (partial) result. -/
theorem c3_dangling_target_aborts (m : StateNode) (h : hasDanglingTarget m = true) :
    exOk (introspectMachine m) = false := by
  cases hs : introspectState m with
  | error e =>
    simp only [introspectMachine, hs]
    rfl
  | ok st =>
    exfalso
    simp only [hasDanglingTarget, List.any_eq_true] at h
    obtain ⟨c, hc, t, ht, tid, htid, hnot⟩ := h
    obtain ⟨st₁, h₁, _⟩ := introspectState_ok_parts hs
    have hmem := runNodes_ok_targets h₁ c hc t ht tid htid
    have : tid ∈ (initState m).nodeMap.map Prod.fst := (containsKey_iff _ _).mp hmem
    rw [initState_keys] at this
    rcases mem_foldAddToSet.mp this with hnil | hin
    · exact absurd hnil (List.not_mem_nil tid)
    · have : (allIds m).contains tid = true := (contains_true_iff _ _).mpr hin
      rw [this] at hnot
      exact absurd hnot (by simp)

/-- Witness for C3 at the dangling-target machine. -/
theorem c3_dangling_target_aborts_witness :
    hasDanglingTarget scenarioDangling = true ∧
      exOk (introspectMachine scenarioDangling) = false :=
  ⟨by simp, c3_dangling_target_aborts scenarioDangling (by simp)⟩

/-- Key search on a cons cell whose head matches. -/
theorem find?_pair_cons_pos {α : Type} {q : String} {p : String × α}
    {rest : List (String × α)} (h : (p.1 == q) = true) :
    List.find? (fun r => r.1 == q) (p :: rest) = some p :=
  List.find?_cons_of_pos _ h

/-- Key search on a cons cell whose head does not match. -/
theorem find?_pair_cons_neg {α : Type} {q : String} {p : String × α}
    {rest : List (String × α)} (h : ¬(p.1 == q) = true) :
    List.find? (fun r => r.1 == q) (p :: rest) = List.find? (fun r => r.1 == q) rest :=
  List.find?_cons_of_neg _ h

/-- In-place update at another key does not change a lookup. -/
theorem jsGet?_updateEntry_ne {α : Type} {m : List (String × α)} {k : String} {f : α → α}
    {q : String} (hq : q ≠ k) : jsGet? (updateEntry m k f) q = jsGet? m q := by
  induction m with
  | nil => rfl
  | cons p rest ih =>
    unfold updateEntry at *
    by_cases hpq : p.1 == q
    · have hpq' : p.1 = q := beq_iff_eq.mp hpq
      have hpk : ¬(p.1 == k) = true := by
        intro hk
        exact hq (hpq' ▸ beq_iff_eq.mp hk)
      unfold jsGet?
      rw [List.map_cons, if_neg hpk, find?_pair_cons_pos hpq, find?_pair_cons_pos hpq]
    · unfold jsGet?
      by_cases hpk : p.1 == k
      · rw [List.map_cons, if_pos hpk,
          find?_pair_cons_neg (show ¬(((p.1, f p.2) : String × α).1 == q) = true from hpq),
          find?_pair_cons_neg hpq]
        exact ih
      · rw [List.map_cons, if_neg hpk, find?_pair_cons_neg hpq, find?_pair_cons_neg hpq]
        exact ih

/-- In-place update at a key transforms exactly that key's lookup. -/
theorem jsGet?_updateEntry_self {α : Type} {m : List (String × α)} {k : String}
    {f : α → α} : jsGet? (updateEntry m k f) k = (jsGet? m k).map f := by
  induction m with
  | nil => rfl
  | cons p rest ih =>
    unfold updateEntry at *
    by_cases hpk : p.1 == k
    · unfold jsGet?
      rw [List.map_cons, if_pos hpk,
        find?_pair_cons_pos (show (((p.1, f p.2) : String × α).1 == k) = true from hpk),
        find?_pair_cons_pos hpk]
      rfl
    · unfold jsGet?
      rw [List.map_cons, if_neg hpk, find?_pair_cons_neg hpk, find?_pair_cons_neg hpk]
      exact ih

/-- An absent key looks up to nothing. -/
theorem jsGet?_eq_none {α : Type} {m : List (String × α)} {k : String}
    (h : containsKey m k = false) : jsGet? m k = none := by
  induction m with
  | nil => rfl
  | cons p rest ih =>
    unfold containsKey at h
    rw [List.any_cons, Bool.or_eq_false_iff] at h
    unfold jsGet?
    rw [find?_pair_cons_neg (by simp [h.1])]
    exact ih (by unfold containsKey; exact h.2)

/-- A present key looks up to something. -/
theorem jsGet?_isSome {α : Type} {m : List (String × α)} {k : String}
    (h : containsKey m k = true) : ∃ v, jsGet? m k = some v := by
  induction m with
  | nil => exact absurd h (by simp [containsKey])
  | cons p rest ih =>
    unfold containsKey at h
    rw [List.any_cons, Bool.or_eq_true] at h
    by_cases hpk : p.1 == k
    · exact ⟨p.2, by unfold jsGet?; rw [find?_pair_cons_pos hpk]; rfl⟩
    · have h₂ : containsKey rest k = true := by
        unfold containsKey
        rcases h with h₁ | h₂
        · exact absurd h₁ hpk
        · exact h₂
      obtain ⟨v, hv⟩ := ih h₂
      exact ⟨v, by unfold jsGet? at *; rw [find?_pair_cons_neg hpk]; exact hv⟩

/-- Appending entries does not change a lookup that already succeeds. -/
theorem jsGet?_append_left {α : Type} {m l : List (String × α)} {k : String} {v : α}
    (h : jsGet? m k = some v) : jsGet? (m ++ l) k = some v := by
  unfold jsGet? at *
  rw [List.find?_append]
  cases hf : m.find? (fun p => p.1 == k) with
  | none => rw [hf] at h; exact absurd h (by simp)
  | some p => rw [hf] at h; exact h

/-- Looking past an absent prefix finds the appended entry. -/
theorem jsGet?_append_fresh {α : Type} {m : List (String × α)} {k : String} {v : α}
    (h : containsKey m k = false) : jsGet? (m ++ [(k, v)]) k = some v := by
  unfold jsGet?
  rw [List.find?_append]
  have hnone : m.find? (fun p => p.1 == k) = none := by
    have h₂ := jsGet?_eq_none h
    unfold jsGet? at h₂
    cases hf : m.find? (fun p => p.1 == k) with
    | none => rfl
    | some p => rw [hf] at h₂; exact absurd h₂ (by simp)
  rw [hnone]
  simp only [Option.none_or]
  rw [find?_pair_cons_pos (by simp)]
  rfl

/-- Appending an entry at another key does not change a lookup. -/
theorem jsGet?_append_single_ne {α : Type} {m : List (String × α)} {k q : String} {v : α}
    (hq : q ≠ k) : jsGet? (m ++ [(k, v)]) q = jsGet? m q := by
  unfold jsGet?
  rw [List.find?_append]
  cases hf : m.find? (fun p => p.1 == q) with
  | some p => rfl
  | none =>
    rw [find?_pair_cons_neg (by simpa using fun h => hq h.symm), List.find?_nil]
    rfl

/-- `addItem` never changes any recorded triggering events. -/
theorem hasEvent_addItem (m : ItemMap) (n : String) (p : List String) (q e : String) :
    hasEvent (addItem m n p) q e = hasEvent m q e := by
  unfold hasEvent addItem
  by_cases hc : containsKey m n
  · rw [if_pos hc]
    by_cases hq : q = n
    · subst hq
      rw [jsGet?_updateEntry_self]
      cases hj : jsGet? m q <;> rfl
    · rw [jsGet?_updateEntry_ne hq]
  · have hc' : containsKey m n = false := Bool.eq_false_iff.mpr hc
    rw [if_neg hc]
    by_cases hq : q = n
    · subst hq
      rw [jsGet?_updateEntry_self, jsGet?_append_fresh hc', jsGet?_eq_none hc']
      rfl
    · rw [jsGet?_updateEntry_ne hq, jsGet?_append_single_ne hq]

/-- An event recorded before `addEventToItem` stays recorded. -/
theorem hasEvent_addEventToItem_mono {m : ItemMap} {q e : String} (n ev : String)
    (p : List String) (h : hasEvent m q e = true) :
    hasEvent (addEventToItem m n ev p) q e = true := by
  have h₂ : hasEvent (addItem m n p) q e = true := by rw [hasEvent_addItem]; exact h
  unfold addEventToItem
  unfold hasEvent at h₂ ⊢
  by_cases hq : q = n
  · subst hq
    rw [jsGet?_updateEntry_self]
    cases hj : jsGet? (addItem m q p) q with
    | none => rw [hj] at h₂; exact absurd h₂ (by simp)
    | some d =>
      rw [hj] at h₂
      show (addToSet d.events ev).contains e = true
      exact (contains_true_iff _ _).mpr (mem_addToSet.mpr (Or.inl ((contains_true_iff _ _).mp h₂)))
  · rw [jsGet?_updateEntry_ne hq]
    exact h₂

/-- `addEventToItem` records its event for its item. -/
theorem hasEvent_addEventToItem_self (m : ItemMap) (n ev : String) (p : List String) :
    hasEvent (addEventToItem m n ev p) n ev = true := by
  have hsome : ∃ d, jsGet? (addItem m n p) n = some d := by
    unfold addItem
    by_cases hc : containsKey m n
    · rw [if_pos hc]
      obtain ⟨v, hv⟩ := jsGet?_isSome hc
      exact ⟨_, by rw [jsGet?_updateEntry_self, hv]; rfl⟩
    · rw [if_neg hc]
      exact ⟨_, by
        rw [jsGet?_updateEntry_self, jsGet?_append_fresh (Bool.eq_false_iff.mpr hc)]
        rfl⟩
  obtain ⟨d, hd⟩ := hsome
  unfold addEventToItem hasEvent
  rw [jsGet?_updateEntry_self, hd]
  show (addToSet d.events ev).contains ev = true
  exact (contains_true_iff _ _).mpr (mem_addToSet.mpr (Or.inr rfl))

/-- `addEventToItem` records no event other than its own. -/
theorem hasEvent_addEventToItem_inv {m : ItemMap} {n ev : String} {p : List String}
    {q e : String} (h : hasEvent (addEventToItem m n ev p) q e = true) :
    hasEvent m q e = true ∨ e = ev := by
  unfold addEventToItem at h
  unfold hasEvent at h
  by_cases hq : q = n
  · subst hq
    rw [jsGet?_updateEntry_self] at h
    cases hj : jsGet? (addItem m q p) q with
    | none => rw [hj] at h; exact absurd h (by simp)
    | some d =>
      rw [hj] at h
      replace h : (addToSet d.events ev).contains e = true := h
      rcases mem_addToSet.mp ((contains_true_iff _ _).mp h) with hin | rfl
      · left
        have h₃ : hasEvent (addItem m q p) q e = true := by
          unfold hasEvent
          rw [hj]
          exact (contains_true_iff _ _).mpr hin
        rwa [hasEvent_addItem] at h₃
      · right
        rfl
  · rw [jsGet?_updateEntry_ne hq] at h
    left
    have h₃ : hasEvent (addItem m n p) q e = true := by unfold hasEvent; exact h
    rwa [hasEvent_addItem] at h₃

/-- Branch-array action registration preserves recorded events. -/
theorem addBranchListActions_mono (ev : String) (path : List String)
    (xs : List (Option String)) {am : ItemMap} {q e : String}
    (h : hasEvent am q e = true) :
    hasEvent (addBranchListActions ev path am xs) q e = true := by
  induction xs generalizing am with
  | nil => exact h
  | cons x rest ih =>
    cases x with
    | some s => exact ih (hasEvent_addEventToItem_mono _ _ _ h)
    | none => exact ih h

/-- Branch-array action registration records each string element under the
enclosing event. -/
theorem addBranchListActions_self (ev : String) (path : List String)
    {xs : List (Option String)} {s : String} (hs : some s ∈ xs) (am : ItemMap) :
    hasEvent (addBranchListActions ev path am xs) s ev = true := by
  induction xs generalizing am with
  | nil => exact absurd hs (List.not_mem_nil _)
  | cons x rest ih =>
    rcases List.mem_cons.mp hs with rfl | hmem
    · exact addBranchListActions_mono ev path rest (hasEvent_addEventToItem_self am s ev path)
    · cases x with
      | some s₂ => exact ih hmem _
      | none => exact ih hmem _

/-- Branch-array action registration adds no event but the enclosing one. -/
theorem addBranchListActions_inv (ev : String) (path : List String)
    (xs : List (Option String)) {am : ItemMap} {q e : String}
    (h : hasEvent (addBranchListActions ev path am xs) q e = true) :
    hasEvent am q e = true ∨ e = ev := by
  induction xs generalizing am with
  | nil => exact Or.inl h
  | cons x rest ih =>
    cases x with
    | some s =>
      rcases ih h with h₂ | h₂
      · exact hasEvent_addEventToItem_inv h₂
      · exact Or.inr h₂
    | none => exact ih h

/-- Branch action registration preserves recorded events. -/
theorem addBranchActions_mono (ev : String) (path : List String) (ca : CondActionsV)
    {am : ItemMap} {q e : String} (h : hasEvent am q e = true) :
    hasEvent (addBranchActions ev path am ca) q e = true := by
  cases ca with
  | arr xs => exact addBranchListActions_mono ev path xs h
  | single s => exact hasEvent_addEventToItem_mono _ _ _ h
  | other => exact h

/-- Branch action registration records each branch action name under the
enclosing event. -/
theorem addBranchActions_self (ev : String) (path : List String) {b : ChooseBranch}
    {s : String} (hs : s ∈ chooseActionNamesOfBranch b) (am : ItemMap) :
    hasEvent (addBranchActions ev path am b.actions) s ev = true := by
  unfold chooseActionNamesOfBranch at hs
  cases hb : b.actions with
  | arr xs =>
    rw [hb] at hs
    rcases List.mem_filterMap.mp hs with ⟨x, hx, hid⟩
    cases x with
    | some s₂ =>
      simp only [id] at hid
      cases hid
      exact addBranchListActions_self ev path hx am
    | none => exact absurd hid (by simp)
  | single s₂ =>
    rw [hb] at hs
    rcases List.mem_singleton.mp hs with rfl
    exact hasEvent_addEventToItem_self am s ev path
  | other =>
    rw [hb] at hs
    exact absurd hs (List.not_mem_nil _)

/-- Branch action registration adds no event but the enclosing one. -/
theorem addBranchActions_inv (ev : String) (path : List String) (ca : CondActionsV)
    {am : ItemMap} {q e : String}
    (h : hasEvent (addBranchActions ev path am ca) q e = true) :
    hasEvent am q e = true ∨ e = ev := by
  cases ca with
  | arr xs => exact addBranchListActions_inv ev path xs h
  | single s => exact hasEvent_addEventToItem_inv h
  | other => exact Or.inl h

/-- Branch walking preserves recorded guard events. -/
theorem processChooseBranches_guards_mono (ev : String) (path : List String)
    (bs : List ChooseBranch) {gm am : ItemMap} {q e : String}
    (h : hasEvent gm q e = true) :
    hasEvent (processChooseBranches ev path gm am bs).1 q e = true := by
  induction bs generalizing gm am with
  | nil => exact h
  | cons b rest ih =>
    cases hc : b.cond with
    | some g =>
      show hasEvent (processChooseBranches ev path (match b.cond with
        | some g => addEventToItem gm g ev path
        | none => gm) (addBranchActions ev path am b.actions) rest).1 q e = true
      rw [hc]
      exact ih (hasEvent_addEventToItem_mono _ _ _ h)
    | none =>
      show hasEvent (processChooseBranches ev path (match b.cond with
        | some g => addEventToItem gm g ev path
        | none => gm) (addBranchActions ev path am b.actions) rest).1 q e = true
      rw [hc]
      exact ih h

/-- Branch walking preserves recorded action events. -/
theorem processChooseBranches_actions_mono (ev : String) (path : List String)
    (bs : List ChooseBranch) {gm am : ItemMap} {q e : String}
    (h : hasEvent am q e = true) :
    hasEvent (processChooseBranches ev path gm am bs).2 q e = true := by
  induction bs generalizing gm am with
  | nil => exact h
  | cons b rest ih => exact ih (addBranchActions_mono ev path b.actions h)

/-- Every string-valued branch guard is recorded under the enclosing event. -/
theorem processChooseBranches_guards_trigger (ev : String) (path : List String)
    {bs : List ChooseBranch} {b : ChooseBranch} (hb : b ∈ bs) {g : String}
    (hg : b.cond = some g) (gm am : ItemMap) :
    hasEvent (processChooseBranches ev path gm am bs).1 g ev = true := by
  induction bs generalizing gm am with
  | nil => exact absurd hb (List.not_mem_nil _)
  | cons b₀ rest ih =>
    rcases List.mem_cons.mp hb with rfl | hmem
    · show hasEvent (processChooseBranches ev path (match b.cond with
        | some g => addEventToItem gm g ev path
        | none => gm) (addBranchActions ev path am b.actions) rest).1 g ev = true
      rw [hg]
      exact processChooseBranches_guards_mono ev path rest
        (hasEvent_addEventToItem_self gm g ev path)
    · exact ih hmem _ _

/-- Every string-valued branch action is recorded under the enclosing event. -/
theorem processChooseBranches_actions_trigger (ev : String) (path : List String)
    {bs : List ChooseBranch} {b : ChooseBranch} (hb : b ∈ bs) {s : String}
    (hs : s ∈ chooseActionNamesOfBranch b) (gm am : ItemMap) :
    hasEvent (processChooseBranches ev path gm am bs).2 s ev = true := by
  induction bs generalizing gm am with
  | nil => exact absurd hb (List.not_mem_nil _)
  | cons b₀ rest ih =>
    rcases List.mem_cons.mp hb with rfl | hmem
    · exact processChooseBranches_actions_mono ev path rest (addBranchActions_self ev path hs am)
    · exact ih hmem _ _

/-- Branch walking adds no guard event but the enclosing one. -/
theorem processChooseBranches_guards_inv (ev : String) (path : List String)
    (bs : List ChooseBranch) {gm am : ItemMap} {q e : String}
    (h : hasEvent (processChooseBranches ev path gm am bs).1 q e = true) :
    hasEvent gm q e = true ∨ e = ev := by
  induction bs generalizing gm am with
  | nil => exact Or.inl h
  | cons b rest ih =>
    rcases ih h with h₂ | h₂
    · cases hc : b.cond with
      | some g =>
        rw [hc] at h₂
        exact hasEvent_addEventToItem_inv h₂
      | none =>
        rw [hc] at h₂
        exact Or.inl h₂
    · exact Or.inr h₂

/-- Branch walking adds no action event but the enclosing one. -/
theorem processChooseBranches_actions_inv (ev : String) (path : List String)
    (bs : List ChooseBranch) {gm am : ItemMap} {q e : String}
    (h : hasEvent (processChooseBranches ev path gm am bs).2 q e = true) :
    hasEvent am q e = true ∨ e = ev := by
  induction bs generalizing gm am with
  | nil => exact Or.inl h
  | cons b rest ih =>
    rcases ih h with h₂ | h₂
    · exact addBranchActions_inv ev path b.actions h₂
    · exact Or.inr h₂


/-- One step of the transition-action walk, as an equation. -/
theorem processTransitionActions_cons (ev : String) (path : List String)
    (gm am : ItemMap) (a : ActionObject) (rest : List ActionObject) :
    processTransitionActions ev path gm am (a :: rest) =
      processTransitionActions ev path (transActionStep ev path gm am a).1
        (transActionStep ev path gm am a).2 rest :=
  rfl

/-- A transition-action step preserves recorded guard events. -/
theorem transActionStep_guards_mono (ev : String) (path : List String)
    (a : ActionObject) {gm am : ItemMap} {q e : String} (h : hasEvent gm q e = true) :
    hasEvent (transActionStep ev path gm am a).1 q e = true := by
  unfold transActionStep
  by_cases ht : a.type = "xstate.choose"
  · rw [if_pos ht]
    cases hc : a.conds with
    | some bs => exact processChooseBranches_guards_mono ev path bs h
    | none => exact h
  · rw [if_neg ht]
    exact h

/-- A transition-action step preserves recorded action events. -/
theorem transActionStep_actions_mono (ev : String) (path : List String)
    (a : ActionObject) {gm am : ItemMap} {q e : String} (h : hasEvent am q e = true) :
    hasEvent (transActionStep ev path gm am a).2 q e = true := by
  unfold transActionStep
  have ham : hasEvent (if xstateMatch a.type then am
      else addEventToItem am a.type ev path) q e = true := by
    by_cases hx : xstateMatch a.type
    · rwa [if_pos hx]
    · rw [if_neg hx]
      exact hasEvent_addEventToItem_mono _ _ _ h
  by_cases ht : a.type = "xstate.choose"
  · rw [if_pos ht]
    cases hc : a.conds with
    | some bs => exact processChooseBranches_actions_mono ev path bs ham
    | none => exact ham
  · rw [if_neg ht]
    exact ham

/-- A transition-action step registers each branch guard of the action's
conditional combinator under the enclosing event. -/
theorem transActionStep_guards_trigger (ev : String) (path : List String)
    {a : ActionObject} {g e0 : String}
    (hp : (g, e0) ∈ chooseGuardPairsOfAction ev a) (gm am : ItemMap) :
    hasEvent (transActionStep ev path gm am a).1 g e0 = true := by
  unfold chooseGuardPairsOfAction at hp
  by_cases ht : a.type = "xstate.choose"
  · rw [if_pos ht] at hp
    cases hc : a.conds with
    | none => rw [hc] at hp; exact absurd hp (List.not_mem_nil _)
    | some bs =>
      rw [hc] at hp
      rcases List.mem_filterMap.mp hp with ⟨b, hb, hmap⟩
      cases hcond : b.cond with
      | none => rw [hcond] at hmap; exact absurd hmap (by simp)
      | some g₂ =>
        rw [hcond] at hmap
        simp only [Option.map_some'] at hmap
        cases hmap
        unfold transActionStep
        rw [if_pos ht, hc]
        exact processChooseBranches_guards_trigger ev path hb hcond gm _
  · rw [if_neg ht] at hp
    exact absurd hp (List.not_mem_nil _)

/-- A transition-action step registers each branch action of the action's
conditional combinator under the enclosing event. -/
theorem transActionStep_actions_trigger (ev : String) (path : List String)
    {a : ActionObject} {s e0 : String}
    (hp : (s, e0) ∈ chooseActionPairsOfAction ev a) (gm am : ItemMap) :
    hasEvent (transActionStep ev path gm am a).2 s e0 = true := by
  unfold chooseActionPairsOfAction at hp
  by_cases ht : a.type = "xstate.choose"
  · rw [if_pos ht] at hp
    cases hc : a.conds with
    | none => rw [hc] at hp; exact absurd hp (List.not_mem_nil _)
    | some bs =>
      rw [hc] at hp
      rcases List.mem_flatten.mp hp with ⟨l, hl, hsl⟩
      rcases List.mem_map.mp hl with ⟨b, hb, rfl⟩
      rcases List.mem_map.mp hsl with ⟨s₂, hs₂, heq⟩
      cases heq
      unfold transActionStep
      rw [if_pos ht, hc]
      exact processChooseBranches_actions_trigger ev path hb hs₂ gm _
  · rw [if_neg ht] at hp
    exact absurd hp (List.not_mem_nil _)

/-- Transition-action walking preserves recorded guard events. -/
theorem processTransitionActions_guards_mono (ev : String) (path : List String)
    (acts : List ActionObject) {gm am : ItemMap} {q e : String}
    (h : hasEvent gm q e = true) :
    hasEvent (processTransitionActions ev path gm am acts).1 q e = true := by
  induction acts generalizing gm am with
  | nil => exact h
  | cons a rest ih =>
    rw [processTransitionActions_cons]
    exact ih (transActionStep_guards_mono ev path a h)

/-- Transition-action walking preserves recorded action events. -/
theorem processTransitionActions_actions_mono (ev : String) (path : List String)
    (acts : List ActionObject) {gm am : ItemMap} {q e : String}
    (h : hasEvent am q e = true) :
    hasEvent (processTransitionActions ev path gm am acts).2 q e = true := by
  induction acts generalizing gm am with
  | nil => exact h
  | cons a rest ih =>
    rw [processTransitionActions_cons]
    exact ih (transActionStep_actions_mono ev path a h)

/-- Transition-action walking registers every branch guard demanded by its
actions under the enclosing event. -/
theorem processTransitionActions_guards_trigger (ev : String) (path : List String)
    {acts : List ActionObject} {a : ActionObject} (ha : a ∈ acts) {g e0 : String}
    (hp : (g, e0) ∈ chooseGuardPairsOfAction ev a) (gm am : ItemMap) :
    hasEvent (processTransitionActions ev path gm am acts).1 g e0 = true := by
  induction acts generalizing gm am with
  | nil => exact absurd ha (List.not_mem_nil _)
  | cons a₀ rest ih =>
    rw [processTransitionActions_cons]
    rcases List.mem_cons.mp ha with rfl | hmem
    · exact processTransitionActions_guards_mono ev path rest
        (transActionStep_guards_trigger ev path hp gm am)
    · exact ih hmem _ _

/-- Transition-action walking registers every branch action demanded by its
actions under the enclosing event. -/
theorem processTransitionActions_actions_trigger (ev : String) (path : List String)
    {acts : List ActionObject} {a : ActionObject} (ha : a ∈ acts) {s e0 : String}
    (hp : (s, e0) ∈ chooseActionPairsOfAction ev a) (gm am : ItemMap) :
    hasEvent (processTransitionActions ev path gm am acts).2 s e0 = true := by
  induction acts generalizing gm am with
  | nil => exact absurd ha (List.not_mem_nil _)
  | cons a₀ rest ih =>
    rw [processTransitionActions_cons]
    rcases List.mem_cons.mp ha with rfl | hmem
    · exact processTransitionActions_actions_mono ev path rest
        (transActionStep_actions_trigger ev path hp gm am)
    · exact ih hmem _ _

/-- The guard-registration step preserves recorded guard events. -/
theorem addTransitionGuard_mono (ev : String) (path : List String) (c : Option String)
    {gm : ItemMap} {q e : String} (h : hasEvent gm q e = true) :
    hasEvent (addTransitionGuard ev path gm c) q e = true := by
  unfold addTransitionGuard
  cases c with
  | none => exact h
  | some n =>
    dsimp only
    by_cases hn : n ≠ "" ∧ n ≠ "cond"
    · rw [if_pos hn]
      exact hasEvent_addEventToItem_mono _ _ _ h
    · rw [if_neg hn]
      exact h

/-- The Guards and Actions maps a successful transition step produces. -/
theorem processTransition_ok_shape {lookup : List (String × NodeCtx)}
    {path : List String} {st st' : IntroState} {t : TransitionDef}
    (h : processTransition lookup path st t = .ok st') :
    st'.guards = (processTransitionActions t.eventType path
        (addTransitionGuard t.eventType path st.guards t.cond) st.actions t.actions).1 ∧
      st'.actions = (processTransitionActions t.eventType path
        (addTransitionGuard t.eventType path st.guards t.cond) st.actions t.actions).2 := by
  unfold processTransition at h
  split at h
  · exact absurd h (by simp)
  next nm hnm =>
    dsimp only at h
    split at h
    · exact absurd h (by simp)
    next sv hsv =>
      simp only [Except.ok.injEq] at h
      subst h
      exact ⟨rfl, rfl⟩

/-- A successful transition step preserves recorded guard events. -/
theorem processTransition_guards_mono {lookup : List (String × NodeCtx)}
    {path : List String} {st st' : IntroState} {t : TransitionDef}
    (h : processTransition lookup path st t = .ok st') {q e : String}
    (hev : hasEvent st.guards q e = true) : hasEvent st'.guards q e = true := by
  rw [(processTransition_ok_shape h).1]
  exact processTransitionActions_guards_mono _ _ _
    (addTransitionGuard_mono _ _ _ hev)

/-- A successful transition step preserves recorded action events. -/
theorem processTransition_actions_mono {lookup : List (String × NodeCtx)}
    {path : List String} {st st' : IntroState} {t : TransitionDef}
    (h : processTransition lookup path st t = .ok st') {q e : String}
    (hev : hasEvent st.actions q e = true) : hasEvent st'.actions q e = true := by
  rw [(processTransition_ok_shape h).2]
  exact processTransitionActions_actions_mono _ _ _ hev

/-- A successful transition step registers every branch guard it demands. -/
theorem processTransition_guards_trigger {lookup : List (String × NodeCtx)}
    {path : List String} {st st' : IntroState} {t : TransitionDef}
    (h : processTransition lookup path st t = .ok st') {p : String × String}
    (hp : p ∈ transitionChooseGuards t) : hasEvent st'.guards p.1 p.2 = true := by
  rw [(processTransition_ok_shape h).1]
  unfold transitionChooseGuards at hp
  rcases List.mem_flatten.mp hp with ⟨l, hl, hpl⟩
  rcases List.mem_map.mp hl with ⟨a, ha, rfl⟩
  obtain ⟨g, e0⟩ := p
  exact processTransitionActions_guards_trigger _ _ ha hpl _ _

/-- A successful transition step registers every branch action it demands. -/
theorem processTransition_actions_trigger {lookup : List (String × NodeCtx)}
    {path : List String} {st st' : IntroState} {t : TransitionDef}
    (h : processTransition lookup path st t = .ok st') {p : String × String}
    (hp : p ∈ transitionChooseActions t) : hasEvent st'.actions p.1 p.2 = true := by
  rw [(processTransition_ok_shape h).2]
  unfold transitionChooseActions at hp
  rcases List.mem_flatten.mp hp with ⟨l, hl, hpl⟩
  rcases List.mem_map.mp hl with ⟨a, ha, rfl⟩
  obtain ⟨s, e0⟩ := p
  exact processTransitionActions_actions_trigger _ _ ha hpl _ _

/-- A successful transition-list walk preserves recorded guard events. -/
theorem processTransitions_guards_mono {lookup : List (String × NodeCtx)}
    {path : List String} {ts : List TransitionDef} {st st' : IntroState}
    (h : processTransitions lookup path st ts = .ok st') {q e : String}
    (hev : hasEvent st.guards q e = true) : hasEvent st'.guards q e = true := by
  induction ts generalizing st with
  | nil =>
    simp only [processTransitions, Except.ok.injEq] at h
    rw [← h]
    exact hev
  | cons t rest ih =>
    unfold processTransitions at h
    split at h
    · exact absurd h (by simp)
    next st₁ hst₁ => exact ih h (processTransition_guards_mono hst₁ hev)

/-- A successful transition-list walk preserves recorded action events. -/
theorem processTransitions_actions_mono {lookup : List (String × NodeCtx)}
    {path : List String} {ts : List TransitionDef} {st st' : IntroState}
    (h : processTransitions lookup path st ts = .ok st') {q e : String}
    (hev : hasEvent st.actions q e = true) : hasEvent st'.actions q e = true := by
  induction ts generalizing st with
  | nil =>
    simp only [processTransitions, Except.ok.injEq] at h
    rw [← h]
    exact hev
  | cons t rest ih =>
    unfold processTransitions at h
    split at h
    · exact absurd h (by simp)
    next st₁ hst₁ => exact ih h (processTransition_actions_mono hst₁ hev)

/-- A successful transition-list walk registers every branch guard demanded
by its transitions. -/
theorem processTransitions_guards_trigger {lookup : List (String × NodeCtx)}
    {path : List String} {ts : List TransitionDef} {st st' : IntroState}
    (h : processTransitions lookup path st ts = .ok st') {t : TransitionDef}
    (ht : t ∈ ts) {p : String × String} (hp : p ∈ transitionChooseGuards t) :
    hasEvent st'.guards p.1 p.2 = true := by
  induction ts generalizing st with
  | nil => exact absurd ht (List.not_mem_nil _)
  | cons t₀ rest ih =>
    unfold processTransitions at h
    split at h
    · exact absurd h (by simp)
    next st₁ hst₁ =>
      rcases List.mem_cons.mp ht with rfl | hmem
      · exact processTransitions_guards_mono h (processTransition_guards_trigger hst₁ hp)
      · exact ih h hmem

/-- A successful transition-list walk registers every branch action
demanded by its transitions. -/
theorem processTransitions_actions_trigger {lookup : List (String × NodeCtx)}
    {path : List String} {ts : List TransitionDef} {st st' : IntroState}
    (h : processTransitions lookup path st ts = .ok st') {t : TransitionDef}
    (ht : t ∈ ts) {p : String × String} (hp : p ∈ transitionChooseActions t) :
    hasEvent st'.actions p.1 p.2 = true := by
  induction ts generalizing st with
  | nil => exact absurd ht (List.not_mem_nil _)
  | cons t₀ rest ih =>
    unfold processTransitions at h
    split at h
    · exact absurd h (by simp)
    next st₁ hst₁ =>
      rcases List.mem_cons.mp ht with rfl | hmem
      · exact processTransitions_actions_mono h (processTransition_actions_trigger hst₁ hp)
      · exact ih h hmem

/-- The initial-entry registration preserves recorded action events. -/
theorem addInitEntryActions_mono (path : List String) (acts : List ActionObject)
    {am : ItemMap} {q e : String} (h : hasEvent am q e = true) :
    hasEvent (addInitEntryActions path am acts) q e = true := by
  induction acts generalizing am with
  | nil => exact h
  | cons a rest ih =>
    by_cases ha : a.type ≠ ""
    · show hasEvent (addInitEntryActions path
        (if a.type ≠ "" then addEventToItem am a.type "xstate.init" path else am) rest) q e = true
      rw [if_pos ha]
      exact ih (hasEvent_addEventToItem_mono _ _ _ h)
    · show hasEvent (addInitEntryActions path
        (if a.type ≠ "" then addEventToItem am a.type "xstate.init" path else am) rest) q e = true
      rw [if_neg ha]
      exact ih h

/-- A successful node step preserves recorded guard events. -/
theorem processNode_guards_mono {lookup : List (String × NodeCtx)} {st st' : IntroState}
    {ctx : NodeCtx} (h : processNode lookup st ctx = .ok st') {q e : String}
    (hev : hasEvent st.guards q e = true) : hasEvent st'.guards q e = true := by
  simp only [processNode] at h
  split at h
  · exact processTransitions_guards_mono h hev
  · exact processTransitions_guards_mono h hev

/-- A successful node step preserves recorded action events. -/
theorem processNode_actions_mono {lookup : List (String × NodeCtx)} {st st' : IntroState}
    {ctx : NodeCtx} (h : processNode lookup st ctx = .ok st') {q e : String}
    (hev : hasEvent st.actions q e = true) : hasEvent st'.actions q e = true := by
  simp only [processNode] at h
  split at h
  · exact processTransitions_actions_mono h (addInitEntryActions_mono _ _ hev)
  · exact processTransitions_actions_mono h hev

/-- A successful node step registers every branch guard of its transitions. -/
theorem processNode_guards_trigger {lookup : List (String × NodeCtx)} {st st' : IntroState}
    {ctx : NodeCtx} (h : processNode lookup st ctx = .ok st') {t : TransitionDef}
    (ht : t ∈ ctx.2.transitions) {p : String × String}
    (hp : p ∈ transitionChooseGuards t) : hasEvent st'.guards p.1 p.2 = true := by
  simp only [processNode] at h
  split at h
  · exact processTransitions_guards_trigger h ht hp
  · exact processTransitions_guards_trigger h ht hp

/-- A successful node step registers every branch action of its transitions. -/
theorem processNode_actions_trigger {lookup : List (String × NodeCtx)} {st st' : IntroState}
    {ctx : NodeCtx} (h : processNode lookup st ctx = .ok st') {t : TransitionDef}
    (ht : t ∈ ctx.2.transitions) {p : String × String}
    (hp : p ∈ transitionChooseActions t) : hasEvent st'.actions p.1 p.2 = true := by
  simp only [processNode] at h
  split at h
  · exact processTransitions_actions_trigger h ht hp
  · exact processTransitions_actions_trigger h ht hp

/-- A successful pass 1 preserves recorded guard events. -/
theorem runNodes_guards_mono {lookup : List (String × NodeCtx)} {cs : List NodeCtx}
    {st st' : IntroState} (h : runNodes lookup st cs = .ok st') {q e : String}
    (hev : hasEvent st.guards q e = true) : hasEvent st'.guards q e = true := by
  induction cs generalizing st with
  | nil =>
    simp only [runNodes, Except.ok.injEq] at h
    rw [← h]
    exact hev
  | cons c rest ih =>
    unfold runNodes at h
    split at h
    · exact absurd h (by simp)
    next st₁ hst₁ => exact ih h (processNode_guards_mono hst₁ hev)

/-- A successful pass 1 preserves recorded action events. -/
theorem runNodes_actions_mono {lookup : List (String × NodeCtx)} {cs : List NodeCtx}
    {st st' : IntroState} (h : runNodes lookup st cs = .ok st') {q e : String}
    (hev : hasEvent st.actions q e = true) : hasEvent st'.actions q e = true := by
  induction cs generalizing st with
  | nil =>
    simp only [runNodes, Except.ok.injEq] at h
    rw [← h]
    exact hev
  | cons c rest ih =>
    unfold runNodes at h
    split at h
    · exact absurd h (by simp)
    next st₁ hst₁ => exact ih h (processNode_actions_mono hst₁ hev)

/-- A successful pass 1 registers every branch guard of every processed
node's transitions. -/
theorem runNodes_guards_trigger {lookup : List (String × NodeCtx)} {cs : List NodeCtx}
    {st st' : IntroState} (h : runNodes lookup st cs = .ok st') {c : NodeCtx}
    (hc : c ∈ cs) {t : TransitionDef} (ht : t ∈ c.2.transitions) {p : String × String}
    (hp : p ∈ transitionChooseGuards t) : hasEvent st'.guards p.1 p.2 = true := by
  induction cs generalizing st with
  | nil => exact absurd hc (List.not_mem_nil _)
  | cons c₀ rest ih =>
    unfold runNodes at h
    split at h
    · exact absurd h (by simp)
    next st₁ hst₁ =>
      rcases List.mem_cons.mp hc with rfl | hmem
      · exact runNodes_guards_mono h (processNode_guards_trigger hst₁ ht hp)
      · exact ih h hmem

/-- A successful pass 1 registers every branch action of every processed
node's transitions. -/
theorem runNodes_actions_trigger {lookup : List (String × NodeCtx)} {cs : List NodeCtx}
    {st st' : IntroState} (h : runNodes lookup st cs = .ok st') {c : NodeCtx}
    (hc : c ∈ cs) {t : TransitionDef} (ht : t ∈ c.2.transitions) {p : String × String}
    (hp : p ∈ transitionChooseActions t) : hasEvent st'.actions p.1 p.2 = true := by
  induction cs generalizing st with
  | nil => exact absurd hc (List.not_mem_nil _)
  | cons c₀ rest ih =>
    unfold runNodes at h
    split at h
    · exact absurd h (by simp)
    next st₁ hst₁ =>
      rcases List.mem_cons.mp hc with rfl | hmem
      · exact runNodes_actions_mono h (processNode_actions_trigger hst₁ ht hp)
      · exact ih h hmem

/-- Pass 2 never touches the Guards registry. -/
theorem runPass2_guards (st : IntroState) (cs : List NodeCtx) :
    (runPass2 st cs).guards = st.guards := by
  induction cs generalizing st with
  | nil => rfl
  | cons c rest ih =>
    show (runPass2 (processNodePass2 st c) rest).guards = st.guards
    rw [ih]
    rfl

/-- The occurrence-only second-pass registration changes no events. -/
theorem addPass2Items_hasEvent (path : List String) (l : List ActionObject)
    (am : ItemMap) (q e : String) :
    hasEvent (addPass2Items path am l) q e = hasEvent am q e := by
  induction l generalizing am with
  | nil => rfl
  | cons a rest ih =>
    by_cases ha : xstateMatch a.type ∨ a.exec
    · show hasEvent (addPass2Items path
        (if xstateMatch a.type ∨ a.exec then am else addItem am a.type path) rest) q e = _
      rw [if_pos ha]
      exact ih am
    · show hasEvent (addPass2Items path
        (if xstateMatch a.type ∨ a.exec then am else addItem am a.type path) rest) q e = _
      rw [if_neg ha, ih, hasEvent_addItem]

/-- Source-event propagation preserves recorded action events. -/
theorem addSourceEvents_mono (path : List String) (ty : String) (srcs : List String)
    {am : ItemMap} {q e : String} (h : hasEvent am q e = true) :
    hasEvent (addSourceEvents path ty am srcs) q e = true := by
  induction srcs generalizing am with
  | nil => exact h
  | cons s rest ih => exact ih (hasEvent_addEventToItem_mono _ _ _ h)

/-- Entry-source propagation preserves recorded action events. -/
theorem addEntrySourceEvents_mono (path : List String) (srcs : List String)
    (acts : List ActionObject) {am : ItemMap} {q e : String}
    (h : hasEvent am q e = true) :
    hasEvent (addEntrySourceEvents path srcs am acts) q e = true := by
  induction acts generalizing am with
  | nil => exact h
  | cons a rest ih => exact ih (addSourceEvents_mono path a.type srcs h)

/-- Pass 2 preserves recorded action events. -/
theorem runPass2_actions_mono (cs : List NodeCtx) {st : IntroState} {q e : String}
    (h : hasEvent st.actions q e = true) :
    hasEvent (runPass2 st cs).actions q e = true := by
  induction cs generalizing st with
  | nil => exact h
  | cons c rest ih =>
    show hasEvent (runPass2 (processNodePass2 st c) rest).actions q e = true
    refine ih ?_
    show hasEvent (addEntrySourceEvents c.2.path _ _ c.2.onEntry) q e = true
    refine addEntrySourceEvents_mono _ _ _ ?_
    rw [addPass2Items_hasEvent]
    exact h

/-- A successful run registers every conditional-branch guard of the
machine under its enclosing transition's event. -/
theorem introspectState_guards_trigger {m : StateNode} {st : IntroState}
    (h : introspectState m = .ok st) {p : String × String}
    (hp : p ∈ machineChooseGuards m) : hasEvent st.guards p.1 p.2 = true := by
  obtain ⟨st₁, h₁, rfl⟩ := introspectState_ok_parts h
  rw [runPass2_guards]
  unfold machineChooseGuards at hp
  rcases List.mem_flatten.mp hp with ⟨l, hl, hpl⟩
  rcases List.mem_map.mp hl with ⟨c, hc, rfl⟩
  rcases List.mem_flatten.mp hpl with ⟨l₂, hl₂, hpl₂⟩
  rcases List.mem_map.mp hl₂ with ⟨t, ht, rfl⟩
  exact runNodes_guards_trigger h₁ hc ht hpl₂

/-- A successful run registers every conditional-branch action of the
machine under its enclosing transition's event. -/
theorem introspectState_actions_trigger {m : StateNode} {st : IntroState}
    (h : introspectState m = .ok st) {p : String × String}
    (hp : p ∈ machineChooseActions m) : hasEvent st.actions p.1 p.2 = true := by
  obtain ⟨st₁, h₁, rfl⟩ := introspectState_ok_parts h
  unfold machineChooseActions at hp
  rcases List.mem_flatten.mp hp with ⟨l, hl, hpl⟩
  rcases List.mem_map.mp hl with ⟨c, hc, rfl⟩
  rcases List.mem_flatten.mp hpl with ⟨l₂, hl₂, hpl₂⟩
  rcases List.mem_map.mp hl₂ with ⟨t, ht, rfl⟩
  exact runPass2_actions_mono _ (runNodes_actions_trigger h₁ hc ht hpl₂)

/-- C5: every string-valued guard of a conditional branch is registered in
Guards keyed by the enclosing transition's event type, every branch action
(string element of an array or single string) is registered in Actions
keyed by the same event, and the branch walker never registers a guard or
action under any event other than the enclosing transition's. -/
theorem c5_choose_attributed_to_outer_event (m : StateNode)
    (h : exOk (introspectState m) = true) :
    ((machineChooseGuards m).all fun p => hasEvent (guardsOfRun m) p.1 p.2) = true ∧
      ((machineChooseActions m).all fun p => hasEvent (actionsOfRun m) p.1 p.2) = true ∧
      (∀ (ev : String) (path : List String) (gm am : ItemMap) (bs : List ChooseBranch)
        (q e : String), hasEvent (processChooseBranches ev path gm am bs).1 q e = true →
          hasEvent gm q e = true ∨ e = ev) ∧
      (∀ (ev : String) (path : List String) (gm am : ItemMap) (bs : List ChooseBranch)
        (q e : String), hasEvent (processChooseBranches ev path gm am bs).2 q e = true →
          hasEvent am q e = true ∨ e = ev) := by
  cases hs : introspectState m with
  | error e => rw [hs] at h; exact absurd h (by simp)
  | ok st =>
    refine ⟨?_, ?_, ?_, ?_⟩
    · rw [List.all_eq_true]
      intro p hp
      have := introspectState_guards_trigger hs hp
      unfold guardsOfRun
      rw [hs]
      exact this
    · rw [List.all_eq_true]
      intro p hp
      have := introspectState_actions_trigger hs hp
      unfold actionsOfRun
      rw [hs]
      exact this
    · intro ev path gm am bs q e hev
      exact processChooseBranches_guards_inv ev path bs hev
    · intro ev path gm am bs q e hev
      exact processChooseBranches_actions_inv ev path bs hev

/-- Witness for C5 at the conditional-combinator scenario machine. -/
theorem c5_choose_attributed_to_outer_event_witness :
    exOk (introspectState scenarioChooseFull) = true ∧
      (((machineChooseGuards scenarioChooseFull).all
          fun p => hasEvent (guardsOfRun scenarioChooseFull) p.1 p.2) = true ∧
        ((machineChooseActions scenarioChooseFull).all
          fun p => hasEvent (actionsOfRun scenarioChooseFull) p.1 p.2) = true ∧
        (∀ (ev : String) (path : List String) (gm am : ItemMap) (bs : List ChooseBranch)
          (q e : String), hasEvent (processChooseBranches ev path gm am bs).1 q e = true →
            hasEvent gm q e = true ∨ e = ev) ∧
        (∀ (ev : String) (path : List String) (gm am : ItemMap) (bs : List ChooseBranch)
          (q e : String), hasEvent (processChooseBranches ev path gm am bs).2 q e = true →
            hasEvent am q e = true ∨ e = ev)) :=
  ⟨by simp, c5_choose_attributed_to_outer_event scenarioChooseFull (by simp)⟩

/-- Every ownership subtree has at least one node. -/
theorem StateNode.count_pos (n : StateNode) : 1 ≤ n.count := by
  cases n with
  | mk i k p o ini cs ts oe ox inv acts aft =>
    show 1 ≤ 1 + StateNode.countList cs
    omega

/-- A member subtree counts no more than its sibling list. -/
theorem StateNode.countList_mem_le {c : StateNode} {cs : List StateNode} (h : c ∈ cs) :
    c.count ≤ StateNode.countList cs := by
  induction cs with
  | nil => exact absurd h (List.not_mem_nil _)
  | cons c₀ rest ih =>
    show _ ≤ c₀.count + StateNode.countList rest
    rcases List.mem_cons.mp h with rfl | hmem
    · omega
    · have := ih hmem
      omega

/-- A child's node count is strictly below its parent's. -/
theorem StateNode.count_child_lt {c n : StateNode} (h : c ∈ n.states) :
    c.count < n.count := by
  cases n with
  | mk i k p o ini cs ts oe ox inv acts aft =>
    have := StateNode.countList_mem_le (show c ∈ cs from h)
    show c.count < 1 + StateNode.countList cs
    omega

/-- The preorder flattening, one step. -/
theorem preorder_eq (parentInit : Option (List String)) (n : StateNode) :
    preorder parentInit n =
      (parentInit, n) :: preorderList n.initialStateNodeIds n.states := by
  cases n with
  | mk i k p o ini cs ts oe ox inv acts aft => rfl

/-- Membership in a sibling flattening. -/
theorem mem_preorderList {parentInit : List String} {cs : List StateNode} {ctx : NodeCtx} :
    ctx ∈ preorderList parentInit cs ↔
      ∃ c ∈ cs, ctx ∈ preorder (some parentInit) c := by
  induction cs with
  | nil => simp [preorderList]
  | cons c rest ih =>
    show ctx ∈ preorder (some parentInit) c ++ preorderList parentInit rest ↔ _
    rw [List.mem_append, ih]
    constructor
    · rintro (h | ⟨c₂, hc₂, h₂⟩)
      · exact ⟨c, List.mem_cons_self c rest, h⟩
      · exact ⟨c₂, List.mem_cons_of_mem c hc₂, h₂⟩
    · rintro ⟨c₂, hc₂, h₂⟩
      rcases List.mem_cons.mp hc₂ with rfl | hmem
      · exact Or.inl h₂
      · exact Or.inr ⟨c₂, hmem, h₂⟩

/-- A node heads its own preorder flattening. -/
theorem self_mem_preorder (parentInit : Option (List String)) (n : StateNode) :
    (parentInit, n) ∈ preorder parentInit n := by
  rw [preorder_eq]
  exact List.mem_cons_self _ _

/-- The ids of a preorder flattening. -/
theorem preorder_ids (parentInit : Option (List String)) (n : StateNode) :
    (preorder parentInit n).map (fun c => c.2.id) =
      n.id :: (preorderList n.initialStateNodeIds n.states).map (fun c => c.2.id) := by
  rw [preorder_eq]
  rfl

/-- The ids of a sibling flattening as a flattened list of segments. -/
theorem preorderList_ids (parentInit : List String) (cs : List StateNode) :
    (preorderList parentInit cs).map (fun c => c.2.id) =
      (cs.map (fun c => (preorder (some parentInit) c).map (fun q => q.2.id))).flatten := by
  induction cs with
  | nil => rfl
  | cons c rest ih =>
    show (preorder (some parentInit) c ++ preorderList parentInit rest).map _ = _
    rw [List.map_append, ih]
    rfl

/-- The children of every node of a preorder flattening are members of the
flattening. -/
theorem preorder_children_closed (k : Nat) :
    ∀ (n : StateNode), n.count ≤ k → ∀ (parentInit : Option (List String)) (ctx : NodeCtx),
      ctx ∈ preorder parentInit n → ∀ c ∈ ctx.2.states,
        ∃ ctx₂, ctx₂ ∈ preorder parentInit n ∧ ctx₂.2 = c := by
  induction k with
  | zero =>
    intro n hn
    exact absurd hn (by have := StateNode.count_pos n; omega)
  | succ k ih =>
    intro n hn parentInit ctx hctx c hc
    rw [preorder_eq] at hctx
    rcases List.mem_cons.mp hctx with rfl | hmem
    · refine ⟨(some n.initialStateNodeIds, c), ?_, rfl⟩
      rw [preorder_eq]
      refine List.mem_cons_of_mem _ (mem_preorderList.mpr ⟨c, hc, ?_⟩)
      exact self_mem_preorder _ c
    · rcases mem_preorderList.mp hmem with ⟨c₀, hc₀, hctx₀⟩
      have hcount : c₀.count ≤ k := by
        have h₁ := StateNode.count_child_lt hc₀
        omega
      obtain ⟨ctx₂, hctx₂, hc₂⟩ := ih c₀ hcount _ _ hctx₀ c hc
      refine ⟨ctx₂, ?_, hc₂⟩
      rw [preorder_eq]
      exact List.mem_cons_of_mem _ (mem_preorderList.mpr ⟨c₀, hc₀, hctx₂⟩)

/-- Under globally distinct ids, every node of a preorder flattening has
pairwise distinct child ids. -/
theorem nodup_childIds (k : Nat) :
    ∀ (n : StateNode), n.count ≤ k → ∀ (parentInit : Option (List String)) (ctx : NodeCtx),
      ((preorder parentInit n).map (fun c => c.2.id)).Nodup →
      ctx ∈ preorder parentInit n → (ctx.2.states.map StateNode.id).Nodup := by
  induction k with
  | zero =>
    intro n hn
    exact absurd hn (by have := StateNode.count_pos n; omega)
  | succ k ih =>
    intro n hn parentInit ctx hids hctx
    rw [preorder_ids] at hids
    have htail := (List.nodup_cons.mp hids).2
    rw [preorderList_ids] at htail
    have hflat := List.nodup_flatten.mp htail
    rw [preorder_eq] at hctx
    rcases List.mem_cons.mp hctx with rfl | hmem
    · have hpw : List.Pairwise
          (fun a b : StateNode =>
            ((preorder (some n.initialStateNodeIds) a).map (fun q => q.2.id)).Disjoint
              ((preorder (some n.initialStateNodeIds) b).map (fun q => q.2.id)))
          n.states := List.pairwise_map.mp hflat.2
      have hne : List.Pairwise (fun a b : StateNode => a.id ≠ b.id) n.states := by
        refine hpw.imp ?_
        intro a b hdis heq
        have hma : a.id ∈ (preorder (some n.initialStateNodeIds) a).map (fun q => q.2.id) := by
          rw [preorder_ids]
          exact List.mem_cons_self _ _
        have hmb : a.id ∈ (preorder (some n.initialStateNodeIds) b).map (fun q => q.2.id) := by
          rw [heq, preorder_ids]
          exact List.mem_cons_self _ _
        exact hdis hma hmb
      exact List.Pairwise.map StateNode.id (fun a b hab => hab) hne
    · rcases mem_preorderList.mp hmem with ⟨c₀, hc₀, hctx₀⟩
      have hcount : c₀.count ≤ k := by
        have h₁ := StateNode.count_child_lt hc₀
        omega
      refine ih c₀ hcount _ _ ?_ hctx₀
      exact hflat.1 _ (List.mem_map_of_mem _ hc₀)

/-- Under globally distinct ids, a node of the machine is determined by its id. -/
theorem allCtxs_id_inj {m : StateNode} (h : (allIds m).Nodup) {c₁ c₂ : NodeCtx}
    (h₁ : c₁ ∈ allCtxs m) (h₂ : c₂ ∈ allCtxs m) (he : c₁.2.id = c₂.2.id) : c₁ = c₂ :=
  List.inj_on_of_nodup_map h h₁ h₂ he

/-- Under globally distinct ids, every machine node has distinct child ids. -/
theorem allCtxs_childIds_nodup {m : StateNode} (h : (allIds m).Nodup) {ctx : NodeCtx}
    (hctx : ctx ∈ allCtxs m) : (ctx.2.states.map StateNode.id).Nodup :=
  nodup_childIds m.count m le_rfl none ctx h hctx

/-- The children of machine nodes are machine nodes. -/
theorem allCtxs_children_closed {m : StateNode} {ctx : NodeCtx} (hctx : ctx ∈ allCtxs m)
    {c : StateNode} (hc : c ∈ ctx.2.states) :
    ∃ ctx₂, ctx₂ ∈ allCtxs m ∧ ctx₂.2 = c :=
  preorder_children_closed m.count m le_rfl none ctx hctx c hc

/-- A successful lookup returns a stored entry. -/
theorem jsGet?_mem {α : Type} {m : List (String × α)} {k : String} {v : α}
    (h : jsGet? m k = some v) : (k, v) ∈ m := by
  induction m with
  | nil => exact absurd h (by simp [jsGet?])
  | cons p rest ih =>
    by_cases hpk : p.1 == k
    · unfold jsGet? at h
      rw [find?_pair_cons_pos hpk] at h
      simp only [Option.map_some', Option.some.injEq] at h
      have hp : p = (k, v) := by
        have h₁ : p.1 = k := beq_iff_eq.mp hpk
        calc p = (p.1, p.2) := rfl
          _ = (k, v) := by rw [h₁, h]
      exact hp ▸ List.mem_cons_self p rest
    · unfold jsGet? at h
      rw [find?_pair_cons_neg hpk] at h
      exact List.mem_cons_of_mem p (ih h)

/-- With distinct keys, lookup finds every stored entry. -/
theorem jsGet?_of_mem_nodup {α : Type} {m : List (String × α)} {k : String} {v : α}
    (hn : (m.map Prod.fst).Nodup) (h : (k, v) ∈ m) : jsGet? m k = some v := by
  induction m with
  | nil => exact absurd h (List.not_mem_nil _)
  | cons p rest ih =>
    rw [List.map_cons, List.nodup_cons] at hn
    rcases List.mem_cons.mp h with rfl | hmem
    · unfold jsGet?
      rw [find?_pair_cons_pos (by simp)]
      rfl
    · have hne : ¬(p.1 == k) = true := by
        intro hk
        have : k ∈ rest.map Prod.fst := List.mem_map_of_mem Prod.fst hmem
        exact hn.1 ((beq_iff_eq.mp hk) ▸ this)
      unfold jsGet?
      rw [find?_pair_cons_neg hne]
      exact ih hn.2 hmem

/-- Every entry of the freshly initialized node map is empty. -/
theorem initNodeMap_values {cs : List NodeCtx} {nm : NodeMap} {q : String × NodeEntry}
    (h : q ∈ initNodeMap nm cs) : q ∈ nm ∨ q.2 = ⟨[], []⟩ := by
  induction cs generalizing nm with
  | nil => exact Or.inl h
  | cons c rest ih =>
    rcases ih h with h₂ | h₂
    · rcases jsInsert_mem h₂ with h₃ | rfl
      · exact Or.inl h₃
      · exact Or.inr rfl
    · exact Or.inr h₂

/-- In-place update of sources leaves every entry's children unchanged. -/
theorem childrenAt_updateEntry {nm : NodeMap} {k : String} {f : NodeEntry → NodeEntry}
    (hf : ∀ e, (f e).children = e.children) (q : String) :
    (jsGet? (updateEntry nm k f) q).map (fun e => e.children) =
      (jsGet? nm q).map (fun e => e.children) := by
  by_cases hq : q = k
  · subst hq
    rw [jsGet?_updateEntry_self]
    cases hj : jsGet? nm q with
    | none => rfl
    | some e =>
      simp only [Option.map_some', hf]
  · rw [jsGet?_updateEntry_ne hq]

/-- Recording incoming events leaves every entry's children unchanged. -/
theorem addTargetSources_children {ev : String} {ts : List String} {nm nm' : NodeMap}
    (h : addTargetSources ev nm ts = .ok nm') (q : String) :
    (jsGet? nm' q).map (fun e => e.children) = (jsGet? nm q).map (fun e => e.children) := by
  induction ts generalizing nm with
  | nil =>
    simp only [addTargetSources, Except.ok.injEq] at h
    rw [h]
  | cons tid rest ih =>
    unfold addTargetSources at h
    by_cases hc : containsKey nm tid
    · rw [if_pos hc] at h
      rw [ih h]
      refine childrenAt_updateEntry ?_ q
      intro e
      rfl
    · rw [if_neg hc] at h
      exact absurd h (by simp)

/-- A transition step leaves every entry's children unchanged. -/
theorem processTransition_children {lookup : List (String × NodeCtx)} {path : List String}
    {st st' : IntroState} {t : TransitionDef}
    (h : processTransition lookup path st t = .ok st') (q : String) :
    (jsGet? st'.nodeMap q).map (fun e => e.children) =
      (jsGet? st.nodeMap q).map (fun e => e.children) := by
  unfold processTransition at h
  split at h
  · exact absurd h (by simp)
  next nm hnm =>
    dsimp only at h
    split at h
    · exact absurd h (by simp)
    next sv hsv =>
      simp only [Except.ok.injEq] at h
      subst h
      exact addTargetSources_children hnm q

/-- A transition-list walk leaves every entry's children unchanged. -/
theorem processTransitions_children {lookup : List (String × NodeCtx)}
    {path : List String} {ts : List TransitionDef} {st st' : IntroState}
    (h : processTransitions lookup path st ts = .ok st') (q : String) :
    (jsGet? st'.nodeMap q).map (fun e => e.children) =
      (jsGet? st.nodeMap q).map (fun e => e.children) := by
  induction ts generalizing st with
  | nil =>
    simp only [processTransitions, Except.ok.injEq] at h
    rw [h]
  | cons t rest ih =>
    unfold processTransitions at h
    split at h
    · exact absurd h (by simp)
    next st₁ hst₁ => rw [ih h, processTransition_children hst₁]

/-- A node step changes no children entry but its own node's. -/
theorem processNode_children_other {lookup : List (String × NodeCtx)} {st st' : IntroState}
    {ctx : NodeCtx} (h : processNode lookup st ctx = .ok st') {q : String}
    (hq : q ≠ ctx.2.id) :
    (jsGet? st'.nodeMap q).map (fun e => e.children) =
      (jsGet? st.nodeMap q).map (fun e => e.children) := by
  simp only [processNode] at h
  split at h <;>
    (rw [processTransitions_children h q]
     dsimp only
     unfold recordChildren
     rw [jsGet?_updateEntry_ne hq])

/-- A node step folds its node's child ids into its own children entry. -/
theorem processNode_children_self {lookup : List (String × NodeCtx)} {st st' : IntroState}
    {ctx : NodeCtx} (h : processNode lookup st ctx = .ok st') :
    (jsGet? st'.nodeMap ctx.2.id).map (fun e => e.children) =
      ((jsGet? st.nodeMap ctx.2.id).map (fun e => e.children)).map
        (fun cl => foldAddToSet cl (ctx.2.states.map StateNode.id)) := by
  simp only [processNode] at h
  split at h <;>
    (rw [processTransitions_children h ctx.2.id]
     dsimp only
     unfold recordChildren
     rw [jsGet?_updateEntry_self]
     cases hj : jsGet? st.nodeMap ctx.2.id <;> rfl)

/-- Pass 1 leaves the children entry of every unprocessed id unchanged. -/
theorem runNodes_children_frame {lookup : List (String × NodeCtx)} {cs : List NodeCtx}
    {st st' : IntroState} (h : runNodes lookup st cs = .ok st') {q : String}
    (hq : ∀ c ∈ cs, c.2.id ≠ q) :
    (jsGet? st'.nodeMap q).map (fun e => e.children) =
      (jsGet? st.nodeMap q).map (fun e => e.children) := by
  induction cs generalizing st with
  | nil =>
    simp only [runNodes, Except.ok.injEq] at h
    rw [h]
  | cons c rest ih =>
    unfold runNodes at h
    split at h
    · exact absurd h (by simp)
    next st₁ hst₁ =>
      rw [ih h (fun c₂ hc₂ => hq c₂ (List.mem_cons_of_mem c hc₂))]
      exact processNode_children_other hst₁ (hq c (List.mem_cons_self c rest)).symm

/-- After a successful pass 1 over nodes with distinct ids, each node's
children entry is exactly the set of its child ids (in order), provided it
started empty. -/
theorem runNodes_children_exact {lookup : List (String × NodeCtx)} {cs : List NodeCtx}
    {st st' : IntroState} (h : runNodes lookup st cs = .ok st')
    (hnodup : (cs.map (fun c => c.2.id)).Nodup) {ctx : NodeCtx} (hctx : ctx ∈ cs)
    (hinit : (jsGet? st.nodeMap ctx.2.id).map (fun e => e.children) = some []) :
    (jsGet? st'.nodeMap ctx.2.id).map (fun e => e.children) =
      some (foldAddToSet [] (ctx.2.states.map StateNode.id)) := by
  induction cs generalizing st with
  | nil => exact absurd hctx (List.not_mem_nil _)
  | cons c rest ih =>
    unfold runNodes at h
    split at h
    · exact absurd h (by simp)
    next st₁ hst₁ =>
      rw [List.map_cons, List.nodup_cons] at hnodup
      rcases List.mem_cons.mp hctx with rfl | hmem
      · have hself := processNode_children_self hst₁
        rw [hinit] at hself
        simp only [Option.map_some'] at hself
        rw [runNodes_children_frame h
          (fun c₂ hc₂ he => hnodup.1 (by rw [← he]; exact List.mem_map_of_mem (fun x => x.2.id) hc₂))]
        exact hself
      · refine ih h hnodup.2 hmem ?_
        rw [processNode_children_other hst₁
          (fun he => hnodup.1 (by rw [← he]; exact List.mem_map_of_mem (fun x => x.2.id) hmem))]
        exact hinit

/-- Every entry of the initialized node map records no children yet. -/
theorem initState_children {m : StateNode} {k : String}
    (hk : containsKey (initState m).nodeMap k = true) :
    (jsGet? (initState m).nodeMap k).map (fun e => e.children) = some [] := by
  obtain ⟨e, he⟩ := jsGet?_isSome hk
  have hmem := jsGet?_mem he
  rcases initNodeMap_values hmem with h₂ | h₂
  · exact absurd h₂ (List.not_mem_nil _)
  · rw [he]
    simp only [Option.map_some', Option.some.injEq]
    rw [show e = ⟨[], []⟩ from h₂]

/-- Registered nodes are machine nodes. -/
theorem machineNodes_mem_allCtxs {m : StateNode} {ctx : NodeCtx}
    (h : ctx ∈ machineNodes m) : ctx ∈ allCtxs m := by
  unfold machineNodes at h
  rcases List.mem_map.mp h with ⟨q, hq, rfl⟩
  unfold machineIdMap buildJsMap at hq
  rcases buildJsMapAux_mem hq with h₂ | h₂
  · exact absurd h₂ (List.not_mem_nil _)
  · unfold machinePairs at h₂
    rcases List.mem_map.mp h₂ with ⟨c, hc, rfl⟩
    exact hc

/-- The id lookup's keys are pairwise distinct. -/
theorem machineIdMap_keys_nodup (m : StateNode) :
    ((machineIdMap m).map Prod.fst).Nodup := by
  rw [machineIdMap_keys]
  exact nodup_foldAddToSet List.nodup_nil

/-- Each registered node is found under its own id. -/
theorem machineNodes_lookup {m : StateNode} {ctx : NodeCtx} (h : ctx ∈ machineNodes m) :
    jsGet? (machineIdMap m) ctx.2.id = some ctx := by
  unfold machineNodes at h
  rcases List.mem_map.mp h with ⟨q, hq, rfl⟩
  have hfst := machineIdMap_fst m q hq
  have : q = (q.2.2.id, q.2) := by
    calc q = (q.1, q.2) := rfl
      _ = (q.2.2.id, q.2) := by rw [hfst]
  exact jsGet?_of_mem_nodup (machineIdMap_keys_nodup m) (this ▸ hq)

/-- What a successful id lookup yields. -/
theorem machineIdMap_lookup_inv {m : StateNode} {k : String} {ctx : NodeCtx}
    (h : jsGet? (machineIdMap m) k = some ctx) :
    k = ctx.2.id ∧ ctx ∈ machineNodes m ∧ ctx ∈ allCtxs m := by
  have hmem := jsGet?_mem h
  have hfst := machineIdMap_fst m (k, ctx) hmem
  have hnode : ctx ∈ machineNodes m := by
    unfold machineNodes
    exact List.mem_map_of_mem (fun p => p.2) hmem
  exact ⟨hfst, hnode, machineNodes_mem_allCtxs hnode⟩

/-- Every machine id is a key of the id lookup. -/
theorem allIds_containsKey {m : StateNode} {k : String} (h : k ∈ allIds m) :
    containsKey (machineIdMap m) k = true := by
  rw [containsKey_iff, machineIdMap_keys]
  exact mem_foldAddToSet.mpr (Or.inr h)

/-- Counting child subtrees through the id lookup. -/
theorem countVia_childIds {lookup : List (String × NodeCtx)} {cs : List StateNode}
    (h : ∀ c ∈ cs, ∃ cctx, jsGet? lookup c.id = some cctx ∧ cctx.2.count = c.count) :
    countVia lookup (cs.map StateNode.id) = StateNode.countList cs := by
  induction cs with
  | nil => rfl
  | cons c rest ih =>
    obtain ⟨cctx, hc, hcount⟩ := h c (List.mem_cons_self c rest)
    show countVia lookup (c.id :: rest.map StateNode.id) = c.count + StateNode.countList rest
    unfold countVia
    rw [hc]
    dsimp only
    rw [hcount, ih (fun c₂ hc₂ => h c₂ (List.mem_cons_of_mem c hc₂))]

/-- A node strictly out-counts its child list. -/
theorem StateNode.countList_lt (n : StateNode) :
    StateNode.countList n.states < n.count := by
  cases n with
  | mk i k p o ini cs ts oe ox inv acts aft =>
    show StateNode.countList cs < 1 + StateNode.countList cs
    omega

/-- Fuel adequacy of the substate builder: over a lookup/node-map pair whose
children entries resolve and strictly shrink the node count, fuel twice the
node count suffices, so the recursion only ever descends the ownership
hierarchy. -/
theorem makeSubStateF_adequate (lookup : List (String × NodeCtx)) (nm : NodeMap)
    (hco : ∀ k ctx, jsGet? lookup k = some ctx →
      ∃ e, jsGet? nm k = some e ∧ countVia lookup e.children < ctx.2.count ∧
        ∀ cid ∈ e.children, ∃ cctx, jsGet? lookup cid = some cctx) :
    ∀ fuel,
      (∀ k ctx, jsGet? lookup k = some ctx → 2 * ctx.2.count ≤ fuel →
        (makeSubStateF lookup nm fuel k).isSome = true) ∧
      (∀ acc cids, (∀ cid ∈ cids, ∃ cctx, jsGet? lookup cid = some cctx) →
        2 * countVia lookup cids + 1 ≤ fuel →
        (makeSubStateChildren lookup nm fuel acc cids).isSome = true) := by
  intro fuel
  induction fuel with
  | zero =>
    constructor
    · intro k ctx hk hcount
      exact absurd hcount (by have := StateNode.count_pos ctx.2; omega)
    · intro acc cids hres hcount
      cases cids with
      | nil => rfl
      | cons cid rest => exact absurd hcount (by omega)
  | succ f ih =>
    constructor
    · intro k ctx hk hcount
      obtain ⟨e, he, hsum, hchild⟩ := hco k ctx hk
      have hc := ih.2 [] e.children hchild (by omega)
      show (makeSubStateF lookup nm (f + 1) k).isSome = true
      unfold makeSubStateF
      rw [he, hk]
      dsimp only
      cases hcs : makeSubStateChildren lookup nm f [] e.children with
      | none => rw [hcs] at hc; exact absurd hc (by simp)
      | some childStates => rfl
    · intro acc cids hres hcount
      cases cids with
      | nil => rfl
      | cons cid rest =>
        obtain ⟨cctx, hcctx⟩ := hres cid (List.mem_cons_self _ _)
        have hvia : countVia lookup (cid :: rest) = cctx.2.count + countVia lookup rest := by
          show (match jsGet? lookup cid with
            | some c => c.2.count
            | none => 0) + countVia lookup rest = cctx.2.count + countVia lookup rest
          rw [hcctx]
        rw [hvia] at hcount
        have hcpos := StateNode.count_pos cctx.2
        show (makeSubStateChildren lookup nm (f + 1) acc (cid :: rest)).isSome = true
        unfold makeSubStateChildren
        rw [hcctx]
        have hF := ih.1 cid cctx hcctx (by omega)
        cases hFv : makeSubStateF lookup nm f cid with
        | none => rw [hFv] at hF; exact absurd hF (by simp)
        | some sub =>
          exact ih.2 (jsInsert acc cctx.2.key sub) rest
            (fun c hc => hres c (List.mem_cons_of_mem _ hc)) (by omega)

/-- The machine's root id is among its ids. -/
theorem rootId_mem_allIds (m : StateNode) : m.id ∈ allIds m :=
  List.mem_map_of_mem (fun c => c.2.id) (self_mem_preorder none m)

/-- C9: the substate tree builder terminates for every finite machine
definition satisfying the unique-id input invariant whose traversal
succeeded — with fuel bounded by the ownership-tree size alone it produces
a tree, and the whole introspection run returns a result rather than
exhausting the call stack; the recursion descends only through the
children sets recorded from the ownership hierarchy, never through
transition targets. -/
theorem c9_substate_builder_terminates (m : StateNode) (h₁ : (allIds m).Nodup)
    (h₂ : exOk (introspectState m) = true) :
    (makeSubStateF (machineIdMap m) (nodeMapOfRun m) (2 * m.count) m.id).isSome = true ∧
      exOk (introspectMachine m) = true := by
  cases hs : introspectState m with
  | error e => rw [hs] at h₂; exact absurd h₂ (by simp)
  | ok st =>
    have hnm : nodeMapOfRun m = st.nodeMap := by
      unfold nodeMapOfRun
      rw [hs]
    obtain ⟨st₁, hrun, hst⟩ := introspectState_ok_parts hs
    have hmn : ((machineNodes m).map (fun c => c.2.id)).Nodup := by
      rw [machineNodes_ids]
      exact machineIdMap_keys_nodup m
    have hco : ∀ k ctx, jsGet? (machineIdMap m) k = some ctx →
        ∃ e, jsGet? st.nodeMap k = some e ∧
          countVia (machineIdMap m) e.children < ctx.2.count ∧
          ∀ cid ∈ e.children, ∃ cctx, jsGet? (machineIdMap m) cid = some cctx := by
      intro k ctx hk
      obtain ⟨hkid, hnodes, hall⟩ := machineIdMap_lookup_inv hk
      subst hkid
      have hkeys : containsKey (initState m).nodeMap ctx.2.id = true := by
        rw [containsKey_iff, initState_keys]
        exact mem_foldAddToSet.mpr
          (Or.inr (List.mem_map_of_mem (fun c => c.2.id) hall))
      have hexact := runNodes_children_exact hrun hmn hnodes (initState_children hkeys)
      have hchn : (ctx.2.states.map StateNode.id).Nodup := allCtxs_childIds_nodup h₁ hall
      have hfold : foldAddToSet [] (ctx.2.states.map StateNode.id) =
          ctx.2.states.map StateNode.id := by
        simpa using foldAddToSet_of_disjoint (by simp) hchn
      have hfin : (jsGet? st.nodeMap ctx.2.id).map (fun e => e.children) =
          some (ctx.2.states.map StateNode.id) := by
        rw [hst, runPass2_nodeMap, hexact, hfold]
      have hres : ∀ c ∈ ctx.2.states, ∃ cctx,
          jsGet? (machineIdMap m) c.id = some cctx ∧ cctx.2.count = c.count := by
        intro c hc
        obtain ⟨ctx₂, hctx₂, hc₂⟩ := allCtxs_children_closed hall hc
        have hkey : containsKey (machineIdMap m) c.id = true := by
          apply allIds_containsKey
          rw [← hc₂]
          exact List.mem_map_of_mem (fun q => q.2.id) hctx₂
        obtain ⟨cctx, hcctx⟩ := jsGet?_isSome hkey
        obtain ⟨hcid, _, hcall⟩ := machineIdMap_lookup_inv hcctx
        have heq : cctx = ctx₂ := allCtxs_id_inj h₁ hcall hctx₂ (by rw [← hcid, hc₂])
        exact ⟨cctx, hcctx, by rw [heq, hc₂]⟩
      cases hj : jsGet? st.nodeMap ctx.2.id with
      | none => rw [hj] at hfin; exact absurd hfin (by simp)
      | some e =>
        rw [hj] at hfin
        simp only [Option.map_some', Option.some.injEq] at hfin
        refine ⟨e, rfl, ?_, ?_⟩
        · rw [hfin, countVia_childIds hres]
          exact StateNode.countList_lt ctx.2
        · intro cid hcid
          rw [hfin] at hcid
          rcases List.mem_map.mp hcid with ⟨c, hc, rfl⟩
          obtain ⟨cctx, hcctx, _⟩ := hres c hc
          exact ⟨cctx, hcctx⟩
    obtain ⟨ctx, hctx⟩ := jsGet?_isSome (allIds_containsKey (rootId_mem_allIds m))
    obtain ⟨hkid, _, hall⟩ := machineIdMap_lookup_inv hctx
    have hroot : ctx = (none, m) := by
      refine allCtxs_id_inj h₁ hall (self_mem_preorder none m) ?_
      exact hkid.symm
    have hiso := (makeSubStateF_adequate (machineIdMap m) st.nodeMap hco (2 * m.count)).1
      m.id ctx hctx (by rw [hroot])
    constructor
    · rw [hnm]
      exact hiso
    · simp only [introspectMachine, hs]
      obtain ⟨sub, hsub⟩ := Option.isSome_iff_exists.mp hiso
      rw [hsub]
      rfl

/-- Witness for C9 at the C1 scenario machine. -/
theorem c9_substate_builder_terminates_witness :
    ((allIds scenarioGo).Nodup ∧ exOk (introspectState scenarioGo) = true) ∧
      ((makeSubStateF (machineIdMap scenarioGo) (nodeMapOfRun scenarioGo)
          (2 * scenarioGo.count) scenarioGo.id).isSome = true ∧
        exOk (introspectMachine scenarioGo) = true) :=
  ⟨⟨by decide, by simp⟩,
    c9_substate_builder_terminates scenarioGo (by decide) (by simp)⟩
